import Mathlib

/-!
Verification of the prpr chart engine (files `src/prpr/src/core/line.rs` and
`src/src/parse/pgr.rs`) against its natural-language specification.

Shallow embedding conventions:
* `f32` values are modelled as `ℚ` (only exact arithmetic, comparison and
  equality are relevant to the verified claims; no NaN/rounding behaviour is
  involved in them).
* Fallible Rust code (`Result`) is modelled with `Except`; a Rust panic
  (index underflow, `unwrap` on `None`, `assert_eq!`) is a distinct error
  value so that "bail with an error" and "panic" are distinguishable.
* Sequential mutation is modelled by explicit state passing.
-/

namespace Prpr

/-! ## Keyframes and animated floats

Modelled from the spec: `Keyframe` and `Anim`/`AnimFloat` are defined in
`prpr/src/core/anim.rs`, which is not under `src/`; §3 and §4.1 of the spec
describe them.  A keyframe is `(time, value, interpolation kind)`; evaluation
locates the segment containing the query time, returns the first value before
the first keyframe and the last value at/after the last keyframe, and
interpolates inside a segment (`Linear`) or holds the left value (`Hold`).
The importer under `src/` uses tween code `2` (linear) for all interior
keyframes and `0` only for a terminal keyframe whose interpolation kind can
never be observed; every other code is treated as `Hold`, which the claims
never depend on.  Per §4.1/§8 the cursor optimization is observationally
transparent, so `set_time`/`now` is modelled as a pure evaluation function. -/

structure Keyframe where
  time : ℚ
  value : ℚ
  tween : ℕ
deriving DecidableEq, Repr

structure AnimFloat where
  keyframes : List Keyframe
deriving DecidableEq, Repr

/-- Modelled from the spec (§4.1): interpolation inside the segment
`[k1, k2)`.  Tween code 2 is `Linear`; other codes hold the left value. -/
def Keyframe.interp (k1 k2 : Keyframe) (t : ℚ) : ℚ :=
  if k1.tween = 2 then
    k1.value + (k2.value - k1.value) *
      (max 0 (min 1 ((t - k1.time) / (k2.time - k1.time))))
  else
    k1.value

/-- Modelled from the spec (§4.1): evaluation of an `AnimFloat` at time `t`.
Before the first keyframe the first value is returned, at/after the last the
last value; an empty timeline evaluates to the default `0`. -/
def AnimFloat.evalList : List Keyframe → ℚ → ℚ
  | [], _ => 0
  | [k], _ => k.value
  | k1 :: k2 :: rest, t =>
    if t < k1.time then k1.value
    else if t < k2.time then k1.interp k2 t
    else AnimFloat.evalList (k2 :: rest) t

def AnimFloat.eval (a : AnimFloat) (t : ℚ) : ℚ :=
  AnimFloat.evalList a.keyframes t

/-- `AnimFloat::fixed(v)`: a constant timeline. -/
def AnimFloat.fixed (v : ℚ) : AnimFloat :=
  ⟨[⟨0, v, 0⟩]⟩

/-- Modelled from the spec (§6): the fixed height-ratio constant
`HEIGHT_RATIO` is defined in `prpr/src/core/mod.rs`, which is not under
`src/`.  Its exact value is immaterial to every theorem below (all statements
are symbolic in it); a concrete value is fixed so the definitions compute. -/
def HEIGHT_RATIO : ℚ := 19 / 5

/-- Modelled from the spec (§6): the fixed note-width constant
`NOTE_WIDTH_RATIO` from `prpr/src/core/mod.rs` (not under `src/`); its exact
value is immaterial to every theorem below. -/
def NOTE_WIDTH_RATIO : ℚ := 13175016 / 100000000

/-! ## Raw (importer-side) chart data, from `src/src/parse/pgr.rs` -/

structure PgrEvent where
  start_time : ℚ
  end_time : ℚ
  /-- `start` field of `PgrEvent` (renamed: `start`/`end` clash with Lean
  keywords). -/
  startVal : ℚ
  endVal : ℚ
  start2Val : ℚ
  end2Val : ℚ
deriving DecidableEq, Repr

structure PgrSpeedEvent where
  start_time : ℚ
  end_time : ℚ
  value : ℚ
  floor_position : ℚ
deriving DecidableEq, Repr

structure PgrNote where
  kind : ℕ
  time : ℚ
  position_x : ℚ
  hold_time : ℚ
  speed : ℚ
  floor_position : ℚ
deriving DecidableEq, Repr

structure PgrJudgeLine where
  bpm : ℚ
  alpha_events : List PgrEvent
  rotate_events : List PgrEvent
  move_events : List PgrEvent
  speed_events : List PgrSpeedEvent
  notes_above : List PgrNote
  notes_below : List PgrNote
deriving DecidableEq, Repr

structure PgrChart where
  offset : ℚ
  judge_line_list : List PgrJudgeLine
deriving DecidableEq, Repr

/-! ## Parsed (engine-side) chart data -/

inductive NoteKind where
  | Click
  | Drag
  | Flick
  | Hold (end_time : ℚ) (end_height : ℚ)
deriving DecidableEq, Repr

/-- The fields of `Note` that `parse_notes` constructs.  The note's object
carries a fixed x translation `AnimFloat::fixed(position_x * NOTE_WIDTH_RATIO)`
and a default (empty) y translation; only the x value is kept here. -/
structure PNote where
  xTranslation : ℚ
  kind : NoteKind
  time : ℚ
  speed : ℚ
  height : ℚ
  multiple_hint : Bool
  fake : Bool
  last_real_time : ℚ
deriving DecidableEq, Repr

structure PJudgeLine where
  alpha : AnimFloat
  rotation : AnimFloat
  translationX : AnimFloat
  translationY : AnimFloat
  height : AnimFloat
  notes_above : List PNote
  notes_below : List PNote
  parent : Option ℕ
  show_below : Bool
deriving DecidableEq, Repr

structure PChart where
  offset : ℚ
  lines : List PJudgeLine
deriving DecidableEq, Repr

/-! ## Error model

`anyhow::bail!` produces an error value; a Rust panic (arithmetic underflow of
`len() - 1`, `unwrap()` of `None`, failed `assert_eq!`) aborts the process.
Both are modelled as `Except` error values, kept distinct. -/

inductive PErr where
  | bailed (msg : String)
  | panicked
deriving DecidableEq, Repr

inductive ChartErr where
  | bailed (line : ℕ) (msg : String)
  | panicked
deriving DecidableEq, Repr

/-- `anyhow`'s `.context(msg)`: prepends context to a bail message, leaves a
panic alone. -/
def withPContext (msg : String) : Except PErr α → Except PErr α
  | .error (.bailed m) => .error (.bailed (msg ++ ": " ++ m))
  | .error .panicked => .error .panicked
  | .ok a => .ok a

/-! ## `validate_events!`

The macro first bails if any event is inverted, then walks index pairs
`(i, i+1)` bailing on a gap, then bails if the last end time is too small.
On an empty list `$pgr.len() - 1` underflows and `$pgr.last().unwrap()`
panics, so the empty case is a panic (the `any` pass over an empty list finds
nothing, hence never bails first). -/

def contiguousEvents (endT startT : α → ℚ) : List α → Bool
  | [] => true
  | [_] => true
  | a :: b :: rest => endT a == startT b && contiguousEvents endT startT (b :: rest)

def validateEvents (startT endT : α → ℚ) (pgr : List α) : Except PErr Unit :=
  match pgr.getLast? with
  | none => .error .panicked
  | some last =>
    if pgr.any (fun it => startT it > endT it) then
      .error (.bailed "Invalid time range")
    else if !contiguousEvents endT startT pgr then
      .error (.bailed "Events should be contiguous")
    else if endT last ≤ 900000000 then
      .error (.bailed "End time is not great enough")
    else
      .ok ()

/-! ## `parse_speed_events` -/

def parse_speed_events (r : ℚ) (pgr : List PgrSpeedEvent) (max_time : ℚ) :
    Except PErr AnimFloat := do
  _ ← validateEvents (·.start_time) (·.end_time) pgr
  match pgr with
  | [] => .error .panicked
  | first :: _ =>
    -- assert_eq!(pgr[0].start_time, 0.0)
    if first.start_time ≠ 0 then .error .panicked
    else
      match pgr.getLast? with
      | none => .error .panicked
      | some last =>
        let kfs := pgr.map (fun it => Keyframe.mk (it.start_time * r) it.floor_position 2)
        let kfs := kfs ++ [Keyframe.mk max_time
          (last.floor_position + (max_time - last.start_time * r) * last.value) 0]
        .ok ⟨kfs.map (fun kf => { kf with value := kf.value / HEIGHT_RATIO })⟩

/-! ## `parse_float_events` and `parse_move_events`

The Rust loops push keyframes onto a growing vector, coalescing a start
keyframe whenever the previous keyframe already carries the event's start
value, and finally `pop()` the last keyframe. -/

def floatKfsLoop (r : ℚ) (kfs : List Keyframe) : List PgrEvent → List Keyframe
  | [] => kfs
  | e :: rest =>
    let kfs :=
      if !(kfs.getLast?.map (fun it => it.value == e.startVal)).getD false then
        kfs ++ [Keyframe.mk (max (e.start_time * r) 0) e.startVal 2]
      else kfs
    floatKfsLoop r (kfs ++ [Keyframe.mk (e.end_time * r) e.endVal 2]) rest

def parse_float_events (r : ℚ) (pgr : List PgrEvent) : Except PErr AnimFloat := do
  _ ← validateEvents (·.start_time) (·.end_time) pgr
  .ok ⟨(floatKfsLoop r [] pgr).dropLast⟩

def moveKfsLoop (r : ℚ) (kf1 kf2 : List Keyframe) :
    List PgrEvent → List Keyframe × List Keyframe
  | [] => (kf1, kf2)
  | e :: rest =>
    let st := max (e.start_time * r) 0
    let en := e.end_time * r
    let kf1 :=
      if !(kf1.getLast?.map (fun it => it.value == e.startVal)).getD false then
        kf1 ++ [Keyframe.mk st e.startVal 2]
      else kf1
    let kf2 :=
      if !(kf2.getLast?.map (fun it => it.value == e.start2Val)).getD false then
        kf2 ++ [Keyframe.mk st e.start2Val 2]
      else kf2
    moveKfsLoop r (kf1 ++ [Keyframe.mk en e.endVal 2]) (kf2 ++ [Keyframe.mk en e.end2Val 2]) rest

def remap01 (kf : Keyframe) : Keyframe :=
  { kf with value := -1 + kf.value * 2 }

def parse_move_events (r : ℚ) (pgr : List PgrEvent) :
    Except PErr (AnimFloat × AnimFloat) := do
  _ ← validateEvents (·.start_time) (·.end_time) pgr
  let kfs := moveKfsLoop r [] [] pgr
  .ok (⟨kfs.1.dropLast.map remap01⟩, ⟨kfs.2.dropLast.map remap01⟩)

/-! ## `parse_notes` -/

def notesSorted : List PgrNote → Bool
  | [] => true
  | [_] => true
  | a :: b :: rest => !(a.time > b.time) && notesSorted (b :: rest)

def parseNoteKind (r : ℚ) (height : AnimFloat) (pgr : PgrNote) : Except PErr NoteKind :=
  -- the Rust `match pgr.kind` over the literal patterns 1, 2, 3, 4 and a
  -- catch-all, written as the equivalent chain of equality tests
  if pgr.kind = 1 then .ok NoteKind.Click
  else if pgr.kind = 2 then .ok NoteKind.Drag
  else if pgr.kind = 3 then
    let end_time := (pgr.time + pgr.hold_time) * r
    -- height.set_time(end_time); height.now()
    let end_height := height.eval end_time
    .ok (NoteKind.Hold end_time end_height)
  else if pgr.kind = 4 then .ok NoteKind.Flick
  else .error (.bailed ("Unknown note type: " ++ toString pgr.kind))

def parseOneNote (r : ℚ) (height : AnimFloat) (pgr : PgrNote) : Except PErr PNote := do
  let kind ← parseNoteKind r height pgr
  .ok {
    xTranslation := pgr.position_x * NOTE_WIDTH_RATIO
    kind := kind
    time := pgr.time * r
    speed := pgr.speed
    height := pgr.floor_position / HEIGHT_RATIO
    multiple_hint := false
    fake := false
    last_real_time := 0
  }

def parse_notes (r : ℚ) (pgr : List PgrNote) (height : AnimFloat) :
    Except PErr (List PNote) :=
  if pgr.isEmpty then .ok []
  else if !notesSorted pgr then .error (.bailed "Notes are not sorted")
  else pgr.mapM (parseOneNote r height)

/-! ## `parse_judge_line` and `parse_phigros` -/

def parse_judge_line (pgr : PgrJudgeLine) (max_time : ℚ) : Except PErr PJudgeLine := do
  let r := 60 / pgr.bpm / 32
  let height ← withPContext "Failed to parse speed events"
    (parse_speed_events r pgr.speed_events max_time)
  let notes_above ← withPContext "Failed to parse notes above"
    (parse_notes r pgr.notes_above height)
  let notes_below ← withPContext "Failed to parse notes below"
    (parse_notes r pgr.notes_below height)
  let alpha ← withPContext "Failed to parse alpha events"
    (parse_float_events r pgr.alpha_events)
  let rotation ← withPContext "Failed to parse rotate events"
    (parse_float_events r pgr.rotate_events)
  let translation ← withPContext "Failed to parse move events"
    (parse_move_events r pgr.move_events)
  .ok {
    alpha := alpha
    rotation := rotation
    translationX := translation.1
    translationY := translation.2
    height := height
    notes_above := notes_above
    notes_below := notes_below
    parent := none
    show_below := true
  }

def maxOrZero : List ℚ → ℚ
  | [] => 0
  | x :: rest => rest.foldl max x

/-- Maximum note time of one line, converted by the line's own ratio
(`.max().unwrap_or_default() * (60. / line.bpm / 32.)`). -/
def lineMaxTime (l : PgrJudgeLine) : ℚ :=
  maxOrZero ((l.notes_above ++ l.notes_below).map (·.time)) * (60 / l.bpm / 32)

def chartMaxTime (pgr : PgrChart) : ℚ :=
  maxOrZero (pgr.judge_line_list.map lineMaxTime) + 1

def parseLines (max_time : ℚ) : ℕ → List PgrJudgeLine → Except ChartErr (List PJudgeLine)
  | _, [] => .ok []
  | id, l :: rest =>
    match parse_judge_line l max_time with
    | .error (.bailed m) => .error (.bailed id ("In judge line #" ++ toString id ++ ": " ++ m))
    | .error .panicked => .error .panicked
    | .ok jl =>
      match parseLines max_time (id + 1) rest with
      | .error e => .error e
      | .ok rest' => .ok (jl :: rest')

/-- Modelled from the spec: `process_lines` lives in `src/parse/mod.rs`, which
is not under `src/`.  Per §4.5/§7 it post-processes the fully parsed lines
(multiple-hint marking, parent validation) and is total; it is modelled as the
identity on the parsed lines, which no claim below depends on. -/
def process_lines (lines : List PJudgeLine) : List PJudgeLine := lines

def parse_phigros (pgr : PgrChart) : Except ChartErr PChart := do
  let max_time := chartMaxTime pgr
  let lines ← parseLines max_time 0 pgr.judge_line_list
  .ok { offset := pgr.offset, lines := process_lines lines }

/-! ## The judge-line note cache, from `src/prpr/src/core/line.rs`

A `CNote` holds the fields of `Note` that `JudgeLineCache` and
`JudgeLine::update`/`render` read.  `plain` is `Note::plain()` and `dead` is
`Note::dead()`, both defined in `core/note.rs` (not under `src/`); the cache
code only branches on their Boolean results, so they are carried as fields.
`ytr` is the current value of `object.translation.1.now()` and `judged` is
`matches!(note.judge, JudgeStatus::Judged)`. -/

structure CNote where
  plain : Bool
  above : Bool
  speed : ℚ
  height : ℚ
  ytr : ℚ
  judged : Bool
  dead : Bool
deriving DecidableEq, Repr

def plainAt (notes : List CNote) (i : ℕ) : Bool :=
  ((notes.get? i).map (·.plain)).getD false

def aboveAt (notes : List CNote) (i : ℕ) : Bool :=
  ((notes.get? i).map (·.above)).getD false

def speedAt (notes : List CNote) (i : ℕ) : ℚ :=
  ((notes.get? i).map (·.speed)).getD 0

def judgedAt (notes : List CNote) (i : ℕ) : Bool :=
  ((notes.get? i).map (·.judged)).getD false

/-- The projected offset of note `i` from the line,
`note.height - height + note.object.translation.1.now()`. -/
def offsetAt (notes : List CNote) (lineHeight : ℚ) (i : ℕ) : ℚ :=
  (((notes.get? i).map (fun n => n.height - lineHeight + n.ytr))).getD 0

/-- The inner `loop` of `JudgeLineCache::reset`: starting from a run head at
`i`, repeatedly increment the index and stop at the first position whose note
fails the continuation test (or at the end of the note list).  The loop stops
exactly one past the maximal prefix of continuing notes after `i`, which is
how it is written here. -/
def runEnd (notes : List CNote) (keep : CNote → Bool) (i : ℕ) : ℕ :=
  i + 1 + ((notes.drop (i + 1)).takeWhile keep).length

/-- Continuation test of an above run with head speed `sp`:
`it.above && it.speed == speed`. -/
def aboveKeep (sp : ℚ) (n : CNote) : Bool :=
  n.above && n.speed == sp

/-- Continuation test of a below run with head speed `sp`: `it.speed == speed`. -/
def belowKeep (sp : ℚ) (n : CNote) : Bool :=
  n.speed == sp

/-- The first `while` loop of `JudgeLineCache::reset`: collect above-run heads
starting at `i`; returns the heads together with the index where the loop
stopped. -/
def buildAbove (notes : List CNote) (i : ℕ) : List ℕ × ℕ :=
  match h : notes.get? i with
  | some n =>
    if n.above then
      let rest := buildAbove notes (runEnd notes (aboveKeep n.speed) i)
      (i :: rest.1, rest.2)
    else ([], i)
  | none => ([], i)
termination_by notes.length - i
decreasing_by
  have h1 : i < notes.length := (List.get?_eq_some.mp h).1
  unfold runEnd
  omega

/-- The second `while` loop of `JudgeLineCache::reset`: collect below-run
heads from `i` to the end of the note list.  (In Rust the loop condition is
`index != notes.len()`; the index reaching the length is the only way the
preceding loop leaves the valid range, so the two tests agree.) -/
def buildBelow (notes : List CNote) (i : ℕ) : List ℕ :=
  match h : notes.get? i with
  | some n => i :: buildBelow notes (runEnd notes (belowKeep n.speed) i)
  | none => []
termination_by notes.length - i
decreasing_by
  have h1 : i < notes.length := (List.get?_eq_some.mp h).1
  unfold runEnd
  omega

structure JudgeLineCache where
  update_order : List ℕ
  above_indices : List ℕ
  below_indices : List ℕ
deriving DecidableEq, Repr

/-- `JudgeLineCache::reset`: rebuild the update order and the run cursors
from the (already sorted) note sequence.  Run tracking starts at the first
note for which `plain()` holds. -/
def JudgeLineCache.reset (notes : List CNote) : JudgeLineCache :=
  let start := notes.findIdx (·.plain)
  let ab := buildAbove notes start
  { update_order := List.range notes.length
    above_indices := ab.1
    below_indices := buildBelow notes ab.2 }

/-- The key `JudgeLineCache::new` sorts by:
`(it.plain(), !it.above, it.speed, it.height + it.object.translation.1.now())`,
lexicographically with `false < true` on the Boolean components. -/
def noteLE (a b : CNote) : Prop :=
  (a.plain = false ∧ b.plain = true) ∨
    (a.plain = b.plain ∧
      ((a.above = true ∧ b.above = false) ∨
        (a.above = b.above ∧
          (a.speed < b.speed ∨
            (a.speed = b.speed ∧ a.height + a.ytr ≤ b.height + b.ytr)))))

/-- The note sequence is sorted by the `JudgeLineCache::new` sort key. -/
def SortedNotes (notes : List CNote) : Prop :=
  notes.Pairwise noteLE

/-- The `while` loop body of the `retain_mut` closures in
`JudgeLine::update`: while the note at the cursor is judged, move to the next
note if it continues the run (`next` relates the current note to the next
one), else drop the cursor (`none`).  An out-of-range cursor is modelled as
`none`; it is unreachable (`self.notes[*index]` would panic in Rust), as the
invariants proved below show. -/
def advanceRun (notes : List CNote) (next : CNote → CNote → Bool) (i : ℕ) : Option ℕ :=
  match h : notes.get? i with
  | none => none
  | some n =>
    if n.judged then
      match notes.get? (i + 1) with
      | some m => if next n m then advanceRun notes next (i + 1) else none
      | none => none
    else some i
termination_by notes.length - i
decreasing_by
  have : i < notes.length := (List.get?_eq_some.mp h).1
  omega

/-- Above-cursor continuation: `it.above && it.speed == self.notes[*index].speed`. -/
def nextAbove (n m : CNote) : Bool :=
  m.above && m.speed == n.speed

/-- Below-cursor continuation: `it.speed == self.notes[*index].speed`. -/
def nextBelow (n m : CNote) : Bool :=
  m.speed == n.speed

/-- `JudgeLine::update`: retain live notes in the update order and advance or
drop every run cursor.  (`Note::update` itself only mutates per-note transform
state, which the cache does not read.) -/
def JudgeLine.update (notes : List CNote) (c : JudgeLineCache) : JudgeLineCache :=
  { update_order := c.update_order.filter (fun id => !(((notes.get? id).map (·.dead)).getD true))
    above_indices := c.above_indices.filterMap (advanceRun notes nextAbove)
    below_indices := c.below_indices.filterMap (advanceRun notes nextBelow) }

/-- The above-run render scan of `JudgeLine::render`, from cursor `i` with the
run speed `sp = self.notes[*index].speed`: walk forward, stopping at a note
that is not above or has a different speed, or — when aggressive culling is
on — at a note whose projected offset exceeds the visible extent.  Returns the
indices passed to `Note::render`. -/
def scanAbove (notes : List CNote) (agg : Bool) (lineHeight extent sp : ℚ) (i : ℕ) :
    List ℕ :=
  match h : notes.get? i with
  | some note =>
    if !note.above || sp != note.speed then []
    else if agg && note.height - lineHeight + note.ytr > extent then []
    else i :: scanAbove notes agg lineHeight extent sp (i + 1)
  | none => []
termination_by notes.length - i
decreasing_by
  have : i < notes.length := (List.get?_eq_some.mp h).1
  omega

/-- The below-run render scan of `JudgeLine::render` (no `above` test). -/
def scanBelow (notes : List CNote) (agg : Bool) (lineHeight extent sp : ℚ) (i : ℕ) :
    List ℕ :=
  match h : notes.get? i with
  | some note =>
    if sp != note.speed then []
    else if agg && note.height - lineHeight + note.ytr > extent then []
    else i :: scanBelow notes agg lineHeight extent sp (i + 1)
  | none => []
termination_by notes.length - i
decreasing_by
  have : i < notes.length := (List.get?_eq_some.mp h).1
  omega

/-- The indices visited by `self.notes.iter().take_while(|it| !it.plain())`
filtered by side: the always-rendered non-run subset. -/
def plainScan (notes : List CNote) (above : Bool) : List ℕ :=
  (List.range (notes.findIdx (·.plain))).filter (fun j => aboveAt notes j == above)

/-- All indices the above-side note pass of `JudgeLine::render` hands to
`Note::render`, in order. -/
def renderAboveIdxs (notes : List CNote) (c : JudgeLineCache) (agg : Bool)
    (lineHeight extent : ℚ) : List ℕ :=
  plainScan notes true ++
    c.above_indices.flatMap (fun i => scanAbove notes agg lineHeight extent (speedAt notes i) i)

/-- All indices the below-side note pass of `JudgeLine::render` hands to
`Note::render`, in order. -/
def renderBelowIdxs (notes : List CNote) (c : JudgeLineCache) (agg : Bool)
    (lineHeight extent : ℚ) : List ℕ :=
  plainScan notes false ++
    c.below_indices.flatMap (fun i => scanBelow notes agg lineHeight extent (speedAt notes i) i)

/-! ## The negative-alpha control codes of `JudgeLine::render` -/

structure ChartSettings where
  pe_alpha_extension : Bool
deriving DecidableEq, Repr

/-- The two `RenderConfig` fields the alpha control codes may change.
`appear_before` is initialised to `f32::INFINITY`, modelled as `none`. -/
structure NoteRenderConfig where
  appear_before : Option ℚ
  draw_below : Bool
deriving DecidableEq, Repr

/-- Outcome of the negative-alpha decoding in `JudgeLine::render` (lines
182–209): whether the note passes run at all, and with which config. -/
structure AlphaOutcome where
  drawNotes : Bool
  config : NoteRenderConfig
deriving DecidableEq, Repr

/-- `(-alpha).floor() as u32`: a float-to-`u32` `as` cast saturates. -/
def floorToU32 (x : ℚ) : ℕ :=
  min (Int.toNat ⌊x⌋) (2 ^ 32 - 1)

/-- The alpha-control decoding of `JudgeLine::render`: with non-negative
alpha (or when the code falls through every recognised range) the notes are
rendered with the default config; negative alpha without the
`pe_alpha_extension` setting, or code `w = 1`, skips the note pass. -/
def alphaControl (settings : ChartSettings) (show_below : Bool) (alpha : ℚ) :
    AlphaOutcome :=
  let config : NoteRenderConfig := { appear_before := none, draw_below := show_below }
  if alpha < 0 then
    if !settings.pe_alpha_extension then ⟨false, config⟩
    else
      let w := floorToU32 (-alpha)
      if w = 1 then ⟨false, config⟩
      else if w = 2 then ⟨true, { config with draw_below := false }⟩
      else if 100 ≤ w ∧ w < 1000 then
        ⟨true, { config with appear_before := some (((w : ℚ) - 100) / 10) }⟩
      else
        -- `1000..2000` is explicitly unimplemented upstream and the wildcard
        -- arm does nothing: both leave the config untouched.
        ⟨true, config⟩
  else ⟨true, config⟩

/-! ## Cache evolution across update passes

Between update passes the external judgement subsystem may flip notes to
`Judged` (and liveness/animated fields change), but the structural fields the
cache logic branches on — `plain()`, `above`, `speed` — are fixed at
construction.  `CoreSame` relates the constructed note sequence to the note
sequence seen at a later pass. -/

def coreEq (a b : CNote) : Prop :=
  a.plain = b.plain ∧ a.above = b.above ∧ a.speed = b.speed

def CoreSame (xs ys : List CNote) : Prop :=
  List.Forall₂ coreEq xs ys

/-- The run block tracked from an above cursor at `i0`: the continuation
test of both the reset scan and the render scan for that run. -/
def aboveBlock (notes : List CNote) (i0 : ℕ) : CNote → Bool :=
  aboveKeep (speedAt notes i0)

/-- The run block tracked from a below cursor at `i0`. -/
def belowBlock (notes : List CNote) (i0 : ℕ) : CNote → Bool :=
  belowKeep (speedAt notes i0)

/-- The cache state after `k` update passes: `JudgeLineCache::reset` over the
sorted base sequence, then one `JudgeLine::update` per pass, pass `k` seeing
the note states `flags k`. -/
def evolve (base : List CNote) (flags : ℕ → List CNote) : ℕ → JudgeLineCache
  | 0 => JudgeLineCache.reset base
  | k + 1 => JudgeLine.update (flags k) (evolve base flags k)

/-! ## Claim-side error predicates

These definitions follow the specification's words (the enumerated fatal
conditions of §4.5/§7), to be compared with the checks the source performs. -/

/-- An event list is bad per the spec: an inverted event
(`start_time > end_time`), a gap between consecutive events, or a final end
time that is not large enough (`≤ 900000000`). -/
def specEventsBad {α : Type} (startT endT : α → ℚ) (l : List α) : Bool :=
  l.any (fun it => startT it > endT it) || !contiguousEvents endT startT l ||
    (match l.getLast? with
     | none => false
     | some last => endT last ≤ 900000000)

/-- A note list is bad per the spec: not sorted by non-decreasing time, or
containing a kind code outside `{1, 2, 3, 4}`. -/
def specNotesBad (l : List PgrNote) : Bool :=
  !notesSorted l ||
    l.any (fun n => !(n.kind == 1 || n.kind == 2 || n.kind == 3 || n.kind == 4))

/-- A judge line is offending per the spec: one of its four event lists is
bad or one of its two note lists is bad. -/
def specBadLine (l : PgrJudgeLine) : Bool :=
  specEventsBad (·.start_time) (·.end_time) l.alpha_events ||
    specEventsBad (·.start_time) (·.end_time) l.rotate_events ||
    specEventsBad (·.start_time) (·.end_time) l.move_events ||
    specEventsBad (·.start_time) (·.end_time) l.speed_events ||
    specNotesBad l.notes_above || specNotesBad l.notes_below

/-- The degenerate inputs on which `parse_judge_line` panics instead of
erroring: empty event lists, and a first speed event not starting at time 0
(the `assert_eq!`).  Structurally well-formed charts in the sense of the
error-handling claim are assumed to avoid them. -/
def NonDegenerateLine (l : PgrJudgeLine) : Prop :=
  l.alpha_events ≠ [] ∧ l.rotate_events ≠ [] ∧ l.move_events ≠ [] ∧
    l.speed_events ≠ [] ∧ ∀ e, l.speed_events.head? = some e → e.start_time = 0

instance (l : PgrJudgeLine) : Decidable (NonDegenerateLine l) := by
  unfold NonDegenerateLine
  infer_instance

/-! ## Concrete instances

A small sorted note sequence and a judgement evolution over it, used to
instantiate the cache theorems on closed inputs. -/

/-- Two plain above notes sharing speed `1`, then one plain below note. -/
def demoNotes : List CNote :=
  [⟨true, true, 1, 0, 0, false, false⟩,
   ⟨true, true, 1, 0, 0, false, false⟩,
   ⟨true, false, 1, 0, 0, false, false⟩]

/-- Judgement evolution over `demoNotes`: the first note is judged during
pass 1 (note state `demoFlags 0`), everything afterwards. -/
def demoFlags : ℕ → List CNote :=
  fun k => if k = 0 then
    [⟨true, true, 1, 0, 0, true, false⟩,
     ⟨true, true, 1, 0, 0, false, false⟩,
     ⟨true, false, 1, 0, 0, false, false⟩]
  else
    [⟨true, true, 1, 0, 0, true, false⟩,
     ⟨true, true, 1, 0, 0, true, false⟩,
     ⟨true, false, 1, 0, 0, true, false⟩]

/-! # Claim settlements

Each claim of the specification is settled by one theorem below, preceded by
general-purpose lemmas about the definitions above. -/

/-- C5 (counterexample): the claim states that every negative-alpha code other
than `w = 1`, `w = 2` and `w ∈ [100, 1000)` degrades to normal rendering; but
with the `pe_alpha_extension` setting disabled, `JudgeLine::render` returns
early for every negative alpha.  At `alpha = -1/2` the code `w` is `0`, which
the claim says renders normally, yet the note pass is skipped. -/
theorem c5_alpha_counterexample :
    floorToU32 (-(-(1 : ℚ) / 2)) = 0 ∧
    (alphaControl ⟨false⟩ true (-(1 : ℚ) / 2)).drawNotes = false := by
  constructor
  · simp only [floorToU32]
    norm_num
  · norm_num [alphaControl]

/-- C5 (amended): for every line whose evaluated alpha is negative during
render, provided the `pe_alpha_extension` setting is enabled (with it
disabled any negative alpha skips the note pass), with `w = floor(-alpha)`:
`w = 1` hides the line's notes entirely, `w = 2` suppresses below-side notes,
`w ∈ [100, 1000)` sets the appear-before threshold to `(w - 100) / 10`
seconds, and every other code (including `w = 0` and `w ∈ [1000, 2000)`)
renders normally. -/
theorem c5_alpha_control (settings : ChartSettings) (sb : Bool) (alpha : ℚ)
    (hneg : alpha < 0) (hext : settings.pe_alpha_extension = true) :
    (floorToU32 (-alpha) = 1 →
      alphaControl settings sb alpha = ⟨false, ⟨none, sb⟩⟩) ∧
    (floorToU32 (-alpha) = 2 →
      alphaControl settings sb alpha = ⟨true, ⟨none, false⟩⟩) ∧
    (100 ≤ floorToU32 (-alpha) → floorToU32 (-alpha) < 1000 →
      alphaControl settings sb alpha =
        ⟨true, ⟨some (((floorToU32 (-alpha) : ℚ) - 100) / 10), sb⟩⟩) ∧
    (floorToU32 (-alpha) ≠ 1 → floorToU32 (-alpha) ≠ 2 →
      ¬(100 ≤ floorToU32 (-alpha) ∧ floorToU32 (-alpha) < 1000) →
      alphaControl settings sb alpha = ⟨true, ⟨none, sb⟩⟩) := by
  simp only [alphaControl, if_pos hneg, hext, Bool.not_true]
  refine ⟨fun h1 => ?_, fun h2 => ?_, fun h100 hlt => ?_, fun h1 h2 hr => ?_⟩
  · simp [h1]
  · simp [h2]
  · have h1 : ¬(floorToU32 (-alpha) = 1) := by omega
    have h2 : ¬(floorToU32 (-alpha) = 2) := by omega
    simp [h1, h2, h100, hlt]
  · simp [h1, h2, hr]

/-- C5 (witness): at `alpha = -301/2` (code `w = 150`) with the extension
enabled, the notes render with an appear-before threshold of 5 seconds. -/
theorem c5_alpha_control_witness :
    alphaControl ⟨true⟩ true (-(301 : ℚ) / 2) = ⟨true, ⟨some 5, true⟩⟩ := by
  have hw : floorToU32 (-(-(301 : ℚ) / 2)) = 150 := by
    simp only [floorToU32]
    norm_num
    rfl
  have h := (c5_alpha_control ⟨true⟩ true (-(301 : ℚ) / 2) (by norm_num) rfl).2.2.1
    (by rw [hw]; norm_num) (by rw [hw]; norm_num)
  rw [h, hw]
  norm_num

/-- C6: for every valid speed-event list (one on which `parse_speed_events`
succeeds), the produced timeline has one keyframe per event at
`start_time * r` with value `floor_position / HEIGHT_RATIO`, plus one
synthesized terminal keyframe at the chart's global maximum time whose value
integrates the final segment's rate out to `max_time`, all divided by
`HEIGHT_RATIO`. -/
theorem c6_speed_events (r max_time : ℚ) (pgr : List PgrSpeedEvent) (a : AnimFloat)
    (h : parse_speed_events r pgr max_time = .ok a) :
    ∃ last, pgr.getLast? = some last ∧
      a.keyframes =
        pgr.map (fun e => Keyframe.mk (e.start_time * r) (e.floor_position / HEIGHT_RATIO) 2)
          ++ [Keyframe.mk max_time
              ((last.floor_position + (max_time - last.start_time * r) * last.value) /
                HEIGHT_RATIO) 0] := by
  simp only [parse_speed_events, Bind.bind, Except.bind] at h
  cases hv : validateEvents (·.start_time) (·.end_time) pgr with
  | error e => rw [hv] at h; simp at h
  | ok u =>
    rw [hv] at h
    dsimp only at h
    cases pgr with
    | nil => simp at h
    | cons first rest =>
      dsimp only at h
      by_cases h0 : first.start_time ≠ 0
      · rw [if_pos h0] at h; simp at h
      · rw [if_neg h0] at h
        cases hl : (first :: rest).getLast? with
        | none => simp at hl
        | some last =>
          rw [hl] at h
          refine ⟨last, rfl, ?_⟩
          cases h' : a with
          | mk kfs =>
            rw [h'] at h
            have := (Except.ok.injEq _ _).mp h
            simp only [AnimFloat.mk.injEq] at this
            rw [← this]
            simp only [List.map_append, List.map_map, List.map_cons, List.map_nil]
            rfl

/-- C6 (witness): one speed event from raw time 0 to 10^9 with rate 2 and
floor position 5, at `r = 1`, `max_time = 7`: the keyframes are the event's
own (at time 0, value `5 / HEIGHT_RATIO`) and the synthesized terminal one at
time 7 with value `(5 + 7 * 2) / HEIGHT_RATIO = 5`. -/
theorem c6_speed_events_witness :
    ∃ last, ([⟨0, 1000000000, 2, 5⟩] : List PgrSpeedEvent).getLast? = some last ∧
      (AnimFloat.mk [Keyframe.mk 0 (5 / HEIGHT_RATIO) 2, Keyframe.mk 7 5 0]).keyframes =
        ([⟨0, 1000000000, 2, 5⟩] : List PgrSpeedEvent).map
            (fun e => Keyframe.mk (e.start_time * 1) (e.floor_position / HEIGHT_RATIO) 2)
          ++ [Keyframe.mk 7
              ((last.floor_position + (7 - last.start_time * 1) * last.value) /
                HEIGHT_RATIO) 0] := by
  exact c6_speed_events 1 7 [⟨0, 1000000000, 2, 5⟩]
    (AnimFloat.mk [Keyframe.mk 0 (5 / HEIGHT_RATIO) 2, Keyframe.mk 7 5 0])
    (by norm_num [parse_speed_events, validateEvents,
      contiguousEvents, Bind.bind, Except.bind, HEIGHT_RATIO])

/-- Traversal lemma: a successful `mapM` over `Except` maps each input
element, preserving positions. -/
theorem mapM_ok_get {α β : Type} (f : α → Except PErr β) :
    ∀ (l : List α) (res : List β), l.mapM f = .ok res →
      ∀ i a, l.get? i = some a → ∃ b, res.get? i = some b ∧ f a = .ok b := by
  intro l
  induction l with
  | nil => intro res h i a hi; simp at hi
  | cons x xs ih =>
    intro res h i a hi
    rw [List.mapM_cons] at h
    cases hfx : f x with
    | error e => rw [hfx] at h; simp [Bind.bind, Except.bind] at h
    | ok y =>
      rw [hfx] at h
      cases hxs : xs.mapM f with
      | error e =>
        rw [hxs] at h
        simp [Bind.bind, Except.bind] at h
      | ok ys =>
        rw [hxs] at h
        simp only [Bind.bind, Except.bind, pure, Except.pure, Except.ok.injEq] at h
        subst h
        cases i with
        | zero =>
          simp only [List.get?_cons_zero, Option.some.injEq] at hi
          subst hi
          exact ⟨y, rfl, hfx⟩
        | succ j =>
          simp only [List.get?_cons_succ] at hi ⊢
          exact ih ys hxs j a hi

/-- Successful `parse_notes` is an elementwise `parseOneNote` traversal. -/
theorem parse_notes_get (r : ℚ) (pgr : List PgrNote) (height : AnimFloat)
    (ns : List PNote) (hp : parse_notes r pgr height = .ok ns)
    (i : ℕ) (pn : PgrNote) (hi : pgr.get? i = some pn) :
    ∃ note, ns.get? i = some note ∧ parseOneNote r height pn = .ok note := by
  unfold parse_notes at hp
  by_cases he : pgr.isEmpty
  · rw [if_pos he] at hp
    rw [List.isEmpty_iff] at he
    subst he
    simp at hi
  · rw [if_neg he] at hp
    by_cases hs : notesSorted pgr
    · rw [hs] at hp
      simp only [Bool.not_true, Bool.false_eq_true, if_false] at hp
      exact mapM_ok_get _ pgr ns hp i pn hi
    · rw [Bool.not_eq_true] at hs
      rw [hs] at hp
      simp at hp

/-- C7: for every Hold note (raw kind code 3) on a line with beat-to-second
ratio `r = 60 / bpm / 32`, the constructed `NoteKind::Hold` has
`end_time = (time + hold_time) * r` (and `end_height` is the floor-position
timeline evaluated there). -/
theorem c7_hold_end_time (bpm : ℚ) (pgr : List PgrNote) (height : AnimFloat)
    (ns : List PNote) (hp : parse_notes (60 / bpm / 32) pgr height = .ok ns)
    (i : ℕ) (pn : PgrNote) (hi : pgr.get? i = some pn) (hk : pn.kind = 3) :
    ∃ note, ns.get? i = some note ∧
      note.kind = NoteKind.Hold ((pn.time + pn.hold_time) * (60 / bpm / 32))
        (height.eval ((pn.time + pn.hold_time) * (60 / bpm / 32))) := by
  obtain ⟨note, hn, hone⟩ := parse_notes_get _ pgr height ns hp i pn hi
  refine ⟨note, hn, ?_⟩
  unfold parseOneNote parseNoteKind at hone
  rw [hk] at hone
  norm_num [Bind.bind, Except.bind] at hone
  rw [← hone]

/-- C7 (witness): a Hold with raw time 0 and hold time 64 at `bpm = 120`
(`r = 1/64`) gets `end_time = 1` second. -/
theorem c7_hold_end_time_witness :
    ∃ note, ([(⟨0, NoteKind.Hold 1 2, 0, 1, 0, false, false, 0⟩ : PNote)]).get? 0 =
        some note ∧ note.kind = NoteKind.Hold 1 2 := by
  have h := c7_hold_end_time 120 [⟨3, 0, 0, 64, 1, 0⟩] (AnimFloat.fixed 2)
    [⟨0, NoteKind.Hold 1 2, 0, 1, 0, false, false, 0⟩]
    (by norm_num [parse_notes, notesSorted, parseOneNote, parseNoteKind, AnimFloat.fixed,
      AnimFloat.eval, AnimFloat.evalList, Bind.bind, Except.bind, pure, Except.pure, List.mapM,
      List.mapM.loop])
    0 ⟨3, 0, 0, 64, 1, 0⟩ rfl rfl
  obtain ⟨note, h1, h2⟩ := h
  refine ⟨note, h1, ?_⟩
  rw [h2]
  norm_num [AnimFloat.fixed, AnimFloat.eval, AnimFloat.evalList]

/-- Values appearing in the keyframes accumulated by the `parse_move_events`
loop all come from the events' start/end fields (first component) and
start2/end2 fields (second component), beyond what was already accumulated. -/
theorem moveKfsLoop_values (r : ℚ) :
    ∀ (pgr : List PgrEvent) (kf1 kf2 : List Keyframe),
      (∀ kf ∈ (moveKfsLoop r kf1 kf2 pgr).1,
        kf ∈ kf1 ∨ ∃ e ∈ pgr, kf.value = e.startVal ∨ kf.value = e.endVal) ∧
      (∀ kf ∈ (moveKfsLoop r kf1 kf2 pgr).2,
        kf ∈ kf2 ∨ ∃ e ∈ pgr, kf.value = e.start2Val ∨ kf.value = e.end2Val) := by
  intro pgr
  induction pgr with
  | nil =>
    intro kf1 kf2
    constructor <;> intro kf hkf <;> exact Or.inl hkf
  | cons e rest ih =>
    intro kf1 kf2
    constructor
    · intro kf hkf
      rw [moveKfsLoop] at hkf
      rcases (ih _ _).1 kf hkf with hin | ⟨e', he', hv⟩
      · rcases List.mem_append.mp hin with hin | hin
        · split at hin
          · rcases List.mem_append.mp hin with hin | hin
            · exact Or.inl hin
            · simp only [List.mem_singleton] at hin
              subst hin
              exact Or.inr ⟨e, List.mem_cons_self e rest, Or.inl rfl⟩
          · exact Or.inl hin
        · simp only [List.mem_singleton] at hin
          subst hin
          exact Or.inr ⟨e, List.mem_cons_self e rest, Or.inr rfl⟩
      · exact Or.inr ⟨e', List.mem_cons_of_mem e he', hv⟩
    · intro kf hkf
      rw [moveKfsLoop] at hkf
      rcases (ih _ _).2 kf hkf with hin | ⟨e', he', hv⟩
      · rcases List.mem_append.mp hin with hin | hin
        · split at hin
          · rcases List.mem_append.mp hin with hin | hin
            · exact Or.inl hin
            · simp only [List.mem_singleton] at hin
              subst hin
              exact Or.inr ⟨e, List.mem_cons_self e rest, Or.inl rfl⟩
          · exact Or.inl hin
        · simp only [List.mem_singleton] at hin
          subst hin
          exact Or.inr ⟨e, List.mem_cons_self e rest, Or.inr rfl⟩
      · exact Or.inr ⟨e', List.mem_cons_of_mem e he', hv⟩

/-- C8 (counterexample): the claim states a parsed note's x translation is
`-1 + 2 * position_x`; but `parse_notes` scales by `NOTE_WIDTH_RATIO`
instead: a Click note at `position_x = 0` gets x translation `0`, not `-1`. -/
theorem c8_remap_counterexample :
    parse_notes 1 [⟨1, 0, 0, 0, 1, 0⟩] (AnimFloat.fixed 0) =
      Except.ok [⟨0, NoteKind.Click, 0, 1, 0, false, false, 0⟩] ∧
    (0 : ℚ) ≠ -1 + 2 * 0 := by
  constructor
  · norm_num [parse_notes, notesSorted, parseOneNote, parseNoteKind, Bind.bind, Except.bind,
      pure, Except.pure, List.mapM, List.mapM.loop]
  · norm_num

/-- C8 (amended): a parsed note's x translation is
`position_x * NOTE_WIDTH_RATIO` and its floor position is scaled by the fixed
height-ratio constant (`floor_position / HEIGHT_RATIO`); the `[0,1] → [-1,1]`
affine remap `v ↦ -1 + 2v` is applied by `parse_move_events` to the line
translation events, not to note x positions. -/
theorem c8_position_maps :
    (∀ (r : ℚ) (pgr : List PgrNote) (height : AnimFloat) (ns : List PNote),
      parse_notes r pgr height = Except.ok ns →
      ∀ (i : ℕ) (pn : PgrNote), pgr.get? i = some pn →
        ∃ note, ns.get? i = some note ∧
          note.xTranslation = pn.position_x * NOTE_WIDTH_RATIO ∧
          note.height = pn.floor_position / HEIGHT_RATIO) ∧
    (∀ (r : ℚ) (pgr : List PgrEvent) (a b : AnimFloat),
      parse_move_events r pgr = Except.ok (a, b) →
      (∀ kf ∈ a.keyframes,
        ∃ e ∈ pgr, kf.value = -1 + e.startVal * 2 ∨ kf.value = -1 + e.endVal * 2) ∧
      (∀ kf ∈ b.keyframes,
        ∃ e ∈ pgr, kf.value = -1 + e.start2Val * 2 ∨ kf.value = -1 + e.end2Val * 2)) := by
  constructor
  · intro r pgr height ns hp i pn hi
    obtain ⟨note, hn, hone⟩ := parse_notes_get r pgr height ns hp i pn hi
    refine ⟨note, hn, ?_⟩
    unfold parseOneNote at hone
    simp only [Bind.bind, Except.bind] at hone
    cases hm : parseNoteKind r height pn with
    | error e => rw [hm] at hone; cases hone
    | ok kind =>
      rw [hm] at hone
      simp only [Except.ok.injEq] at hone
      rw [← hone]
      exact ⟨rfl, rfl⟩
  · intro r pgr a b hp
    simp only [parse_move_events, Bind.bind, Except.bind] at hp
    cases hv : validateEvents (·.start_time) (·.end_time) pgr with
    | error e => rw [hv] at hp; cases hp
    | ok u =>
      rw [hv] at hp
      simp only [Except.ok.injEq, Prod.mk.injEq] at hp
      obtain ⟨ha, hb⟩ := hp
      constructor
      · intro kf hkf
        rw [← ha] at hkf
        simp only [List.mem_map] at hkf
        obtain ⟨kf0, hkf0, hremap⟩ := hkf
        have hkf0' : kf0 ∈ (moveKfsLoop r [] [] pgr).1 :=
          List.dropLast_subset _ hkf0
        rcases (moveKfsLoop_values r pgr [] []).1 kf0 hkf0' with hin | ⟨e, he, hv'⟩
        · simp at hin
        · refine ⟨e, he, ?_⟩
          rw [← hremap]
          simp only [remap01]
          rcases hv' with h | h <;> rw [h] <;> [exact Or.inl rfl; exact Or.inr rfl]
      · intro kf hkf
        rw [← hb] at hkf
        simp only [List.mem_map] at hkf
        obtain ⟨kf0, hkf0, hremap⟩ := hkf
        have hkf0' : kf0 ∈ (moveKfsLoop r [] [] pgr).2 :=
          List.dropLast_subset _ hkf0
        rcases (moveKfsLoop_values r pgr [] []).2 kf0 hkf0' with hin | ⟨e, he, hv'⟩
        · simp at hin
        · refine ⟨e, he, ?_⟩
          rw [← hremap]
          simp only [remap01]
          rcases hv' with h | h <;> rw [h] <;> [exact Or.inl rfl; exact Or.inr rfl]

/-- C8 (witness): a Click note at `position_x = 3`, floor position 7, parses
to x translation `3 * NOTE_WIDTH_RATIO` and height `7 / HEIGHT_RATIO`. -/
theorem c8_position_maps_witness :
    ∃ note,
      ([(⟨3 * NOTE_WIDTH_RATIO, NoteKind.Click, 0, 1, 7 / HEIGHT_RATIO, false, false, 0⟩ :
        PNote)]).get? 0 = some note ∧
      note.xTranslation = (3 : ℚ) * NOTE_WIDTH_RATIO ∧
      note.height = (7 : ℚ) / HEIGHT_RATIO := by
  exact c8_position_maps.1 1 [⟨1, 0, 3, 0, 1, 7⟩] (AnimFloat.fixed 0)
    [⟨3 * NOTE_WIDTH_RATIO, NoteKind.Click, 0, 1, 7 / HEIGHT_RATIO, false, false, 0⟩]
    (by norm_num [parse_notes, notesSorted, parseOneNote, parseNoteKind, Bind.bind,
      Except.bind, pure, Except.pure, List.mapM, List.mapM.loop])
    0 ⟨1, 0, 3, 0, 1, 7⟩ rfl

/-- What a successful `validate_events!` guarantees: a non-empty list, no
inverted event, contiguity, and a large-enough terminal end time. -/
theorem validateEvents_ok_elim {α : Type} (startT endT : α → ℚ) (l : List α)
    (h : validateEvents startT endT l = .ok ()) :
    contiguousEvents endT startT l = true ∧ (∀ a ∈ l, startT a ≤ endT a) ∧
      ∃ last, l.getLast? = some last ∧ 900000000 < endT last := by
  unfold validateEvents at h
  cases hl : l.getLast? with
  | none => rw [hl] at h; cases h
  | some last =>
    rw [hl] at h
    dsimp only at h
    by_cases h1 : l.any (fun it => startT it > endT it)
    · rw [if_pos h1] at h; cases h
    · rw [if_neg h1] at h
      by_cases h2 : contiguousEvents endT startT l
      · rw [h2] at h
        simp only [Bool.not_true, Bool.false_eq_true, if_false] at h
        by_cases h3 : endT last ≤ 900000000
        · rw [if_pos h3] at h; cases h
        · refine ⟨h2, ?_, last, rfl, by linarith [not_le.mp h3]⟩
          intro a ha
          by_contra hlt
          exact h1 (List.any_eq_true.mpr ⟨a, ha, by simpa using not_le.mp (fun hc => hlt hc)⟩)
      · rw [Bool.not_eq_true] at h2
        rw [h2] at h
        simp at h
  
/-- Evaluating a timeline at or after the time of its last keyframe (which
bounds all keyframe times) yields the last keyframe's value. -/
theorem evalList_after_last :
    ∀ (kfs : List Keyframe) (kfl : Keyframe), kfs.getLast? = some kfl →
      (∀ kf ∈ kfs, kf.time ≤ kfl.time) → ∀ t, kfl.time ≤ t →
      AnimFloat.evalList kfs t = kfl.value
  | [], kfl, h, _, _, _ => by simp at h
  | [k], kfl, h, _, _, _ => by
    simp only [List.getLast?_singleton, Option.some.injEq] at h
    subst h
    rfl
  | k1 :: k2 :: rest, kfl, h, hall, t, ht => by
    rw [List.getLast?_cons_cons] at h
    have h1 : k1.time ≤ kfl.time := hall k1 (by simp)
    have h2 : k2.time ≤ kfl.time := hall k2 (by simp)
    rw [AnimFloat.evalList]
    rw [if_neg (by linarith), if_neg (by linarith)]
    exact evalList_after_last (k2 :: rest) kfl h
      (fun kf hkf => hall kf (List.mem_cons_of_mem _ hkf)) t ht

/-- The keyframe loop distributes over list append. -/
theorem floatKfsLoop_append (r : ℚ) :
    ∀ (l1 l2 : List PgrEvent) (kfs : List Keyframe),
      floatKfsLoop r kfs (l1 ++ l2) = floatKfsLoop r (floatKfsLoop r kfs l1) l2 := by
  intro l1
  induction l1 with
  | nil => intro l2 kfs; rfl
  | cons e rest ih =>
    intro l2 kfs
    rw [List.cons_append, floatKfsLoop, floatKfsLoop]
    exact ih l2 _

/-- Invariant of the `parse_float_events` keyframe loop: over a contiguous,
non-inverted, non-negative-time event list (with `r ≥ 0`), starting from an
accumulator bounded by the first event's start and ending (if non-empty) at a
keyframe exactly at the first event's start, the loop produces a body bounded
by the last event's start, ending at a keyframe carrying the last event's
start value at the last event's start time, followed by one final keyframe
carrying the last event's end value (the one `pop()` removes). -/
theorem floatKfsLoop_last_spec (r : ℚ) (hr : 0 ≤ r) :
    ∀ (pgr : List PgrEvent) (kfs : List Keyframe) (first last : PgrEvent),
      pgr.head? = some first → pgr.getLast? = some last →
      contiguousEvents (·.end_time) (·.start_time) pgr = true →
      (∀ e ∈ pgr, e.start_time ≤ e.end_time ∧ 0 ≤ e.start_time) →
      (∀ kf ∈ kfs, kf.time ≤ first.start_time * r) →
      (kfs = [] ∨ ∃ kfl, kfs.getLast? = some kfl ∧ kfl.time = first.start_time * r) →
      ∃ body, floatKfsLoop r kfs pgr =
          body ++ [Keyframe.mk (last.end_time * r) last.endVal 2] ∧
        (∀ kf ∈ body, kf.time ≤ last.start_time * r) ∧
        ∃ kfl, body.getLast? = some kfl ∧ kfl.value = last.startVal ∧
          kfl.time = last.start_time * r := by
  intro pgr
  induction pgr with
  | nil => intro kfs first last hh; cases hh
  | cons e rest ih =>
    intro kfs first last hh hl hc hev hbound hinv
    rw [List.head?_cons, Option.some.injEq] at hh
    subst hh
    rw [floatKfsLoop]
    have hst : max (e.start_time * r) 0 = e.start_time * r :=
      max_eq_left (mul_nonneg (hev e (by simp)).2 hr)
    have hbound1 : ∀ kf ∈ (if !(kfs.getLast?.map (fun it => it.value == e.startVal)).getD false
        then kfs ++ [Keyframe.mk (max (e.start_time * r) 0) e.startVal 2] else kfs),
        kf.time ≤ e.start_time * r := by
      intro kf hkf
      split at hkf
      · rcases List.mem_append.mp hkf with h | h
        · exact hbound kf h
        · simp only [List.mem_singleton] at h
          subst h
          rw [hst]
      · exact hbound kf hkf
    have hlast1 : ∃ kfl, (if !(kfs.getLast?.map (fun it => it.value == e.startVal)).getD false
        then kfs ++ [Keyframe.mk (max (e.start_time * r) 0) e.startVal 2] else kfs).getLast?
          = some kfl ∧ kfl.value = e.startVal ∧ kfl.time = e.start_time * r := by
      split
      · exact ⟨_, List.getLast?_concat _, rfl, hst⟩
      · next hcond =>
        rw [Bool.not_eq_true', Bool.not_eq_false] at hcond
        cases hgl : kfs.getLast? with
        | none => rw [hgl] at hcond; cases hcond
        | some kfl0 =>
          rw [hgl] at hcond
          simp at hcond
          rcases hinv with h | ⟨kfl1, hs, htime⟩
          · subst h; cases hgl
          · rw [hgl] at hs
            have h01 : kfl0 = kfl1 := (Option.some.injEq _ _).mp hs
            exact ⟨kfl0, rfl, hcond, by rw [h01]; exact htime⟩
    cases rest with
    | nil =>
      simp only [List.getLast?_singleton, Option.some.injEq] at hl
      subst hl
      rw [floatKfsLoop]
      exact ⟨_, rfl, hbound1, hlast1⟩
    | cons b t =>
      rw [contiguousEvents] at hc
      simp only [Bool.and_eq_true] at hc
      obtain ⟨hc1, hc2⟩ := hc
      have heb : e.end_time = b.start_time := beq_iff_eq.mp hc1
      have hle : e.start_time * r ≤ b.start_time * r :=
        mul_le_mul_of_nonneg_right (le_of_le_of_eq (hev e (by simp)).1 heb) hr
      rw [List.getLast?_cons_cons] at hl
      refine ih _ b last rfl hl hc2 (fun x hx => hev x (List.mem_cons_of_mem _ hx)) ?_ ?_
      · intro kf hkf
        rcases List.mem_append.mp hkf with h | h
        · exact le_trans (hbound1 kf h) hle
        · simp only [List.mem_singleton] at h
          subst h
          exact le_of_eq (by rw [heb])
      · refine Or.inr ⟨_, List.getLast?_concat _, by rw [heb]⟩

/-- The first component of the `parse_move_events` loop is the
`parse_float_events` loop. -/
theorem moveKfsLoop_fst (r : ℚ) :
    ∀ (pgr : List PgrEvent) (kf1 kf2 : List Keyframe),
      (moveKfsLoop r kf1 kf2 pgr).1 = floatKfsLoop r kf1 pgr := by
  intro pgr
  induction pgr with
  | nil => intro kf1 kf2; rfl
  | cons e rest ih =>
    intro kf1 kf2
    rw [moveKfsLoop, floatKfsLoop]
    exact ih _ _

/-- The second component of the `parse_move_events` loop is the
`parse_float_events` loop over the events with their second value channel
moved into the first. -/
theorem moveKfsLoop_snd (r : ℚ) :
    ∀ (pgr : List PgrEvent) (kf1 kf2 : List Keyframe),
      (moveKfsLoop r kf1 kf2 pgr).2 = floatKfsLoop r kf2 (pgr.map (fun e =>
        PgrEvent.mk e.start_time e.end_time e.start2Val e.end2Val e.start2Val e.end2Val)) := by
  intro pgr
  induction pgr with
  | nil => intro kf1 kf2; rfl
  | cons e rest ih =>
    intro kf1 kf2
    rw [List.map_cons, moveKfsLoop, floatKfsLoop]
    exact ih _ _

/-- Appending an element with the same start time preserves the contiguity
test of the whole list. -/
theorem contiguousEvents_snoc_time {α : Type} (endT startT : α → ℚ) (x y : α)
    (hs : startT x = startT y) :
    ∀ init : List α,
      contiguousEvents endT startT (init ++ [x]) =
        contiguousEvents endT startT (init ++ [y])
  | [] => rfl
  | [a] => by
    simp only [List.cons_append, List.nil_append, contiguousEvents, hs]
  | a :: b :: t => by
    simp only [List.cons_append, contiguousEvents]
    congr 1
    exact contiguousEvents_snoc_time endT startT x y hs (b :: t)

/-- `validate_events!` only reads the time fields: replacing the last event
by one with the same time range does not change its outcome. -/
theorem validateEvents_snoc_ext {α : Type} (startT endT : α → ℚ) (init : List α)
    (x y : α) (hs : startT x = startT y) (he : endT x = endT y) :
    validateEvents startT endT (init ++ [x]) =
      validateEvents startT endT (init ++ [y]) := by
  unfold validateEvents
  rw [List.getLast?_concat, List.getLast?_concat, List.any_append, List.any_append]
  simp only [List.any_cons, List.any_nil, Bool.or_false]
  rw [contiguousEvents_snoc_time _ _ _ _ hs init, hs, he]

/-- The keyframes surviving the final `pop()` do not depend on the last
event's end value (only its start time and start value matter). -/
theorem floatKfsLoop_snoc_dropLast (r : ℚ) (init : List PgrEvent) (x y : PgrEvent)
    (hst : x.start_time = y.start_time) (hsv : x.startVal = y.startVal) :
    (floatKfsLoop r [] (init ++ [x])).dropLast =
      (floatKfsLoop r [] (init ++ [y])).dropLast := by
  rw [floatKfsLoop_append, floatKfsLoop_append]
  simp only [floatKfsLoop, List.dropLast_concat]
  rw [hst, hsv]

/-- Contiguity is preserved by mapping, provided the map preserves the time
fields. -/
theorem contiguousEvents_map_time {α β : Type} (endT startT : α → ℚ)
    (endT2 startT2 : β → ℚ) (f : β → α)
    (hf : ∀ e, endT (f e) = endT2 e ∧ startT (f e) = startT2 e) :
    ∀ l : List β,
      contiguousEvents endT startT (l.map f) = contiguousEvents endT2 startT2 l
  | [] => rfl
  | [_] => rfl
  | a :: b :: t => by
    simp only [List.map_cons, contiguousEvents, (hf a).1, (hf b).2]
    congr 1
    have := contiguousEvents_map_time endT startT endT2 startT2 f hf (b :: t)
    simpa using this

/-- C9 (counterexample): the claim states the popped-terminal timeline's
value at and after the final keyframe equals the last event's start value;
for `parse_move_events` the value is first remapped by `v ↦ -1 + 2v`: a
single move event with start value 0 yields a timeline that evaluates to
`-1`, not `0`. -/
theorem c9_pop_counterexample :
    parse_move_events 1 [⟨0, 1000000000, 0, 1, 0, 1⟩] =
      Except.ok (⟨[⟨0, -1, 2⟩]⟩, ⟨[⟨0, -1, 2⟩]⟩) ∧
    AnimFloat.eval ⟨[⟨0, -1, 2⟩]⟩ 0 ≠ 0 := by
  constructor
  · norm_num [parse_move_events, validateEvents, contiguousEvents, moveKfsLoop,
      remap01, Bind.bind, Except.bind]
  · norm_num [AnimFloat.eval, AnimFloat.evalList]

/-- C9 (amended): `parse_float_events` and `parse_move_events` drop the last
emitted keyframe (`kfs.pop()`), so (over a successfully validated event list
with non-negative ratio and start times) the resulting timeline's final
keyframe sits at the last event's start time, the timeline's value at and
after that time equals the last event's start value — for move events after
the `[0,1] → [-1,1]` remap, i.e. `-1 + 2·start` (resp. `-1 + 2·start2`) —
and the final event's end value(s) never influence the resulting timeline at
all. -/
theorem c9_dropped_terminal_keyframe :
    (∀ (r : ℚ) (pgr : List PgrEvent) (a : AnimFloat) (last : PgrEvent),
      parse_float_events r pgr = Except.ok a → pgr.getLast? = some last →
      0 ≤ r → (∀ e ∈ pgr, 0 ≤ e.start_time) →
      ∃ kf, a.keyframes.getLast? = some kf ∧
        kf.time = last.start_time * r ∧ kf.value = last.startVal ∧
        ∀ t, last.start_time * r ≤ t → a.eval t = last.startVal) ∧
    (∀ (r : ℚ) (pgr : List PgrEvent) (ab : AnimFloat × AnimFloat) (last : PgrEvent),
      parse_move_events r pgr = Except.ok ab → pgr.getLast? = some last →
      0 ≤ r → (∀ e ∈ pgr, 0 ≤ e.start_time) →
      (∃ kf, ab.1.keyframes.getLast? = some kf ∧
        kf.time = last.start_time * r ∧ kf.value = -1 + last.startVal * 2 ∧
        ∀ t, last.start_time * r ≤ t → ab.1.eval t = -1 + last.startVal * 2) ∧
      (∃ kf, ab.2.keyframes.getLast? = some kf ∧
        kf.time = last.start_time * r ∧ kf.value = -1 + last.start2Val * 2 ∧
        ∀ t, last.start_time * r ≤ t → ab.2.eval t = -1 + last.start2Val * 2)) ∧
    (∀ (r q q2 : ℚ) (init : List PgrEvent) (e : PgrEvent),
      parse_float_events r
          (init ++ [⟨e.start_time, e.end_time, e.startVal, q, e.start2Val, e.end2Val⟩]) =
        parse_float_events r (init ++ [e]) ∧
      parse_move_events r
          (init ++ [⟨e.start_time, e.end_time, e.startVal, q, e.start2Val, q2⟩]) =
        parse_move_events r (init ++ [e])) := by
  have hfst : ∀ (r : ℚ) (pgr : List PgrEvent) (last : PgrEvent),
      validateEvents (·.start_time) (·.end_time) pgr = .ok () →
      pgr.getLast? = some last → 0 ≤ r → (∀ e ∈ pgr, 0 ≤ e.start_time) →
      ∃ body, floatKfsLoop r [] pgr =
          body ++ [Keyframe.mk (last.end_time * r) last.endVal 2] ∧
        (∀ kf ∈ body, kf.time ≤ last.start_time * r) ∧
        ∃ kfl, body.getLast? = some kfl ∧ kfl.value = last.startVal ∧
          kfl.time = last.start_time * r := by
    intro r pgr last hv hl hr0 hpos
    obtain ⟨hc, hiv, -⟩ := validateEvents_ok_elim _ _ _ hv
    cases pgr with
    | nil => simp at hl
    | cons e0 tail =>
      exact floatKfsLoop_last_spec r hr0 (e0 :: tail) [] e0 last rfl hl hc
        (fun x hx => ⟨hiv x hx, hpos x hx⟩) (by simp) (Or.inl rfl)
  have hafter : ∀ (body : List Keyframe) (kfl : Keyframe) (T : ℚ),
      body.getLast? = some kfl → kfl.time = T → (∀ kf ∈ body, kf.time ≤ T) →
      ∀ t, T ≤ t → AnimFloat.evalList body t = kfl.value := by
    intro body kfl T hgl htime hbound t ht
    exact evalList_after_last body kfl hgl
      (fun kf hkf => htime ▸ hbound kf hkf) t (by rw [htime]; exact ht)
  refine ⟨?_, ?_, ?_⟩
  · intro r pgr a last hp hl hr0 hpos
    simp only [parse_float_events, Bind.bind, Except.bind] at hp
    cases hv : validateEvents (·.start_time) (·.end_time) pgr with
    | error er => rw [hv] at hp; simp at hp
    | ok u =>
      cases u
      rw [hv] at hp
      simp only [Except.ok.injEq] at hp
      obtain ⟨body, hfl, hbound, kfl, hkfl, hval, htime⟩ := hfst r pgr last hv hl hr0 hpos
      have hkeys : a.keyframes = body := by
        rw [← hp, hfl, List.dropLast_concat]
      refine ⟨kfl, by rw [hkeys]; exact hkfl, htime, hval, ?_⟩
      intro t ht
      rw [AnimFloat.eval, hkeys]
      rw [hafter body kfl (last.start_time * r) hkfl htime hbound t ht]
      exact hval
  · intro r pgr ab last hp hl hr0 hpos
    simp only [parse_move_events, Bind.bind, Except.bind] at hp
    cases hv : validateEvents (·.start_time) (·.end_time) pgr with
    | error er => rw [hv] at hp; simp at hp
    | ok u =>
      cases u
      rw [hv] at hp
      simp only [Except.ok.injEq] at hp
      constructor
      · obtain ⟨body, hfl, hbound, kfl, hkfl, hval, htime⟩ := hfst r pgr last hv hl hr0 hpos
        have hkeys : ab.1.keyframes = body.map remap01 := by
          rw [← hp]
          dsimp only
          rw [moveKfsLoop_fst, hfl, List.dropLast_concat]
        refine ⟨remap01 kfl, ?_, htime, by rw [remap01]; rw [hval], ?_⟩
        · rw [hkeys, List.getLast?_map, hkfl]
          rfl
        · intro t ht
          rw [AnimFloat.eval, hkeys]
          rw [hafter (body.map remap01) (remap01 kfl) (last.start_time * r)
            (by rw [List.getLast?_map, hkfl]; rfl) htime ?_ t ht]
          · rw [remap01, hval]
          · intro kf hkf
            obtain ⟨kf0, hkf0, hmap⟩ := List.mem_map.mp hkf
            rw [← hmap]
            exact hbound kf0 hkf0
      · have hv2 : validateEvents (·.start_time) (·.end_time) (pgr.map (fun e =>
            PgrEvent.mk e.start_time e.end_time e.start2Val e.end2Val e.start2Val e.end2Val))
            = .ok () := by
          unfold validateEvents at hv ⊢
          rw [List.getLast?_map]
          cases hgl : pgr.getLast? with
          | none => rw [hgl] at hv; cases hv
          | some l0 =>
            rw [hgl] at hv
            dsimp only [Option.map_some'] at hv ⊢
            rw [contiguousEvents_map_time (fun x : PgrEvent => x.end_time)
              (fun x : PgrEvent => x.start_time) (fun x : PgrEvent => x.end_time)
              (fun x : PgrEvent => x.start_time)
              (fun e : PgrEvent => PgrEvent.mk e.start_time e.end_time e.start2Val
                e.end2Val e.start2Val e.end2Val)
              (fun e => ⟨rfl, rfl⟩) pgr]
            rw [List.any_map]
            exact hv
        have hl2 : (pgr.map (fun e =>
            PgrEvent.mk e.start_time e.end_time e.start2Val e.end2Val e.start2Val e.end2Val)).getLast?
            = some (PgrEvent.mk last.start_time last.end_time last.start2Val last.end2Val
                last.start2Val last.end2Val) := by
          rw [List.getLast?_map, hl]
          rfl
        have hpos2 : ∀ e ∈ (pgr.map (fun e =>
            PgrEvent.mk e.start_time e.end_time e.start2Val e.end2Val e.start2Val e.end2Val)),
            0 ≤ e.start_time := by
          intro x hx
          obtain ⟨e0, he0, hmap⟩ := List.mem_map.mp hx
          rw [← hmap]
          exact hpos e0 he0
        obtain ⟨body, hfl, hbound, kfl, hkfl, hval, htime⟩ :=
          hfst r _ _ hv2 hl2 hr0 hpos2
        have hkeys : ab.2.keyframes = body.map remap01 := by
          rw [← hp]
          dsimp only
          rw [moveKfsLoop_snd, hfl, List.dropLast_concat]
        refine ⟨remap01 kfl, ?_, htime, by rw [remap01]; rw [hval], ?_⟩
        · rw [hkeys, List.getLast?_map, hkfl]
          rfl
        · intro t ht
          rw [AnimFloat.eval, hkeys]
          rw [hafter (body.map remap01) (remap01 kfl) (last.start_time * r)
            (by rw [List.getLast?_map, hkfl]; rfl) htime ?_ t ht]
          · rw [remap01, hval]
          · intro kf hkf
            obtain ⟨kf0, hkf0, hmap⟩ := List.mem_map.mp hkf
            rw [← hmap]
            exact hbound kf0 hkf0
  · intro r q q2 init e
    constructor
    · simp only [parse_float_events, Bind.bind, Except.bind]
      rw [validateEvents_snoc_ext (fun x : PgrEvent => x.start_time)
        (fun x : PgrEvent => x.end_time) init
        (PgrEvent.mk e.start_time e.end_time e.startVal q e.start2Val e.end2Val) e rfl rfl]
      cases hv : validateEvents (·.start_time) (·.end_time) (init ++ [e]) with
      | error er => rfl
      | ok u =>
        cases u
        simp only [Except.ok.injEq, AnimFloat.mk.injEq]
        rw [floatKfsLoop_snoc_dropLast r init
          (PgrEvent.mk e.start_time e.end_time e.startVal q e.start2Val e.end2Val) e rfl rfl]
    · simp only [parse_move_events, Bind.bind, Except.bind]
      rw [validateEvents_snoc_ext (fun x : PgrEvent => x.start_time)
        (fun x : PgrEvent => x.end_time) init
        (PgrEvent.mk e.start_time e.end_time e.startVal q e.start2Val q2) e rfl rfl]
      cases hv : validateEvents (·.start_time) (·.end_time) (init ++ [e]) with
      | error er => rfl
      | ok u =>
        cases u
        simp only [Except.ok.injEq, Prod.mk.injEq, AnimFloat.mk.injEq]
        constructor
        · rw [moveKfsLoop_fst, moveKfsLoop_fst]
          rw [floatKfsLoop_snoc_dropLast r init
            (PgrEvent.mk e.start_time e.end_time e.startVal q e.start2Val q2) e rfl rfl]
        · rw [moveKfsLoop_snd, moveKfsLoop_snd, List.map_append, List.map_append]
          simp only [List.map_cons, List.map_nil]
          rw [floatKfsLoop_snoc_dropLast r (init.map _)
            (PgrEvent.mk e.start_time e.end_time e.start2Val q2 e.start2Val q2)
            (PgrEvent.mk e.start_time e.end_time e.start2Val e.end2Val e.start2Val e.end2Val)
            rfl rfl]

/-- C9 (witness): a two-event list (values 3→4 then 4→9, times 0→5→10^9) at
`r = 1`: the float timeline is `[(0,3), (5,4)]` — the final keyframe sits at
the last event's start time 5 with its start value 4 — and evaluates to 4 at
time 7; replacing the last event's end value 9 by 100 leaves the parse
result unchanged. -/
theorem c9_dropped_terminal_keyframe_witness :
    (∃ kf, (AnimFloat.mk [⟨0, 3, 2⟩, ⟨5, 4, 2⟩]).keyframes.getLast? = some kf ∧
      kf.time = (5 : ℚ) * 1 ∧ kf.value = 4 ∧
      ∀ t, (5 : ℚ) * 1 ≤ t → (AnimFloat.mk [⟨0, 3, 2⟩, ⟨5, 4, 2⟩]).eval t = 4) ∧
    parse_float_events 1
        ([⟨0, 5, 3, 4, 0, 0⟩] ++ [⟨5, 1000000000, 4, 100, 0, 0⟩]) =
      parse_float_events 1 ([⟨0, 5, 3, 4, 0, 0⟩] ++ [⟨5, 1000000000, 4, 9, 0, 0⟩]) := by
  constructor
  · exact c9_dropped_terminal_keyframe.1 1
      [⟨0, 5, 3, 4, 0, 0⟩, ⟨5, 1000000000, 4, 9, 0, 0⟩]
      (AnimFloat.mk [⟨0, 3, 2⟩, ⟨5, 4, 2⟩]) ⟨5, 1000000000, 4, 9, 0, 0⟩
      (by norm_num [parse_float_events, validateEvents, contiguousEvents, floatKfsLoop,
        Bind.bind, Except.bind])
      rfl (by norm_num) (by
        intro e he
        simp only [List.mem_cons, List.mem_singleton] at he
        rcases he with h | h | h <;> first | (subst h; norm_num) | cases h)
  · exact (c9_dropped_terminal_keyframe.2.2 1 100 0 [⟨0, 5, 3, 4, 0, 0⟩]
      ⟨5, 1000000000, 4, 9, 0, 0⟩).1

theorem withPContext_ok {α : Type} (msg : String) (a : α) :
    withPContext msg (Except.ok a) = Except.ok a := rfl

theorem withPContext_bailed {α : Type} (msg m : String) :
    withPContext msg (Except.error (PErr.bailed m) : Except PErr α) =
      Except.error (PErr.bailed (msg ++ ": " ++ m)) := rfl

theorem withPContext_panicked {α : Type} (msg : String) :
    withPContext msg (Except.error PErr.panicked : Except PErr α) =
      Except.error PErr.panicked := rfl

/-- Case analysis of `withPContext` outcomes. -/
theorem withPContext_cases {α : Type} (msg : String) (x : Except PErr α) :
    (∀ a, x = Except.ok a → withPContext msg x = Except.ok a) ∧
    (∀ m, x = Except.error (PErr.bailed m) →
      withPContext msg x = Except.error (PErr.bailed (msg ++ ": " ++ m))) := by
  constructor
  · intro a h; rw [h]; rfl
  · intro m h; rw [h]; rfl

/-- On a non-empty event list, `validate_events!` bails exactly when the
spec's event conditions hold, and succeeds otherwise (it never panics). -/
theorem validateEvents_cases {α : Type} (startT endT : α → ℚ) (l : List α)
    (hne : l ≠ []) :
    (specEventsBad startT endT l = true →
      ∃ m, validateEvents startT endT l = .error (.bailed m)) ∧
    (specEventsBad startT endT l = false →
      validateEvents startT endT l = .ok ()) := by
  cases hgl : l.getLast? with
  | none => exact absurd (List.getLast?_eq_none_iff.mp hgl) hne
  | some last =>
    unfold specEventsBad validateEvents
    rw [hgl]
    dsimp only
    by_cases h1 : l.any (fun it => startT it > endT it)
    · rw [if_pos h1]
      constructor
      · intro _; exact ⟨_, rfl⟩
      · intro hbad; rw [h1] at hbad; simp at hbad
    · rw [if_neg h1]
      rw [Bool.not_eq_true] at h1
      rw [h1]
      by_cases h2 : contiguousEvents endT startT l
      · rw [h2]
        simp only [Bool.not_true, Bool.false_eq_true, if_false, Bool.false_or]
        by_cases h3 : endT last ≤ 900000000
        · rw [if_pos h3]
          constructor
          · intro _; exact ⟨_, rfl⟩
          · intro hbad
            rw [decide_eq_false_iff_not] at hbad
            exact absurd h3 hbad
        · rw [if_neg h3]
          constructor
          · intro hbad
            rw [decide_eq_true_eq] at hbad
            exact absurd hbad h3
          · intro _; rfl
      · rw [Bool.not_eq_true] at h2
        rw [h2]
        simp only [Bool.not_false, if_true, Bool.true_or, Bool.or_true]
        constructor
        · intro _; exact ⟨_, rfl⟩
        · intro hbad; simp at hbad

theorem parse_float_events_cases (r : ℚ) (pgr : List PgrEvent) (hne : pgr ≠ []) :
    (specEventsBad (·.start_time) (·.end_time) pgr = true →
      ∃ m, parse_float_events r pgr = .error (.bailed m)) ∧
    (specEventsBad (·.start_time) (·.end_time) pgr = false →
      ∃ a, parse_float_events r pgr = .ok a) := by
  obtain ⟨hbad, hgood⟩ := validateEvents_cases (fun x : PgrEvent => x.start_time)
    (fun x : PgrEvent => x.end_time) pgr hne
  constructor
  · intro h
    obtain ⟨m, hm⟩ := hbad h
    exact ⟨m, by simp only [parse_float_events, Bind.bind, Except.bind, hm]⟩
  · intro h
    refine ⟨AnimFloat.mk (floatKfsLoop r [] pgr).dropLast, ?_⟩
    simp only [parse_float_events, Bind.bind, Except.bind, hgood h]

theorem parse_move_events_cases (r : ℚ) (pgr : List PgrEvent) (hne : pgr ≠ []) :
    (specEventsBad (·.start_time) (·.end_time) pgr = true →
      ∃ m, parse_move_events r pgr = .error (.bailed m)) ∧
    (specEventsBad (·.start_time) (·.end_time) pgr = false →
      ∃ ab, parse_move_events r pgr = .ok ab) := by
  obtain ⟨hbad, hgood⟩ := validateEvents_cases (fun x : PgrEvent => x.start_time)
    (fun x : PgrEvent => x.end_time) pgr hne
  constructor
  · intro h
    obtain ⟨m, hm⟩ := hbad h
    exact ⟨m, by simp only [parse_move_events, Bind.bind, Except.bind, hm]⟩
  · intro h
    refine ⟨(AnimFloat.mk ((moveKfsLoop r [] [] pgr).1.dropLast.map remap01),
      AnimFloat.mk ((moveKfsLoop r [] [] pgr).2.dropLast.map remap01)), ?_⟩
    simp only [parse_move_events, Bind.bind, Except.bind, hgood h]

theorem parse_speed_events_cases (r mt : ℚ) (pgr : List PgrSpeedEvent) (hne : pgr ≠ [])
    (h0 : ∀ e, pgr.head? = some e → e.start_time = 0) :
    (specEventsBad (·.start_time) (·.end_time) pgr = true →
      ∃ m, parse_speed_events r pgr mt = .error (.bailed m)) ∧
    (specEventsBad (·.start_time) (·.end_time) pgr = false →
      ∃ a, parse_speed_events r pgr mt = .ok a) := by
  obtain ⟨hbad, hgood⟩ := validateEvents_cases (fun x : PgrSpeedEvent => x.start_time)
    (fun x : PgrSpeedEvent => x.end_time) pgr hne
  constructor
  · intro h
    obtain ⟨m, hm⟩ := hbad h
    exact ⟨m, by simp only [parse_speed_events, Bind.bind, Except.bind, hm]⟩
  · intro h
    cases pgr with
    | nil => exact absurd rfl hne
    | cons first rest =>
      cases hgl : (first :: rest).getLast? with
      | none => simp at hgl
      | some last =>
        refine ⟨AnimFloat.mk ((((first :: rest).map
            (fun it => Keyframe.mk (it.start_time * r) it.floor_position 2)) ++
          [Keyframe.mk mt (last.floor_position + (mt - last.start_time * r) * last.value) 0]).map
            (fun kf => { kf with value := kf.value / HEIGHT_RATIO })), ?_⟩
        simp only [parse_speed_events, Bind.bind, Except.bind, hgood h]
        rw [if_neg (by simp [h0 first rfl]), hgl]

theorem parseOneNote_kind_cases (r : ℚ) (height : AnimFloat) (pn : PgrNote) :
    ((pn.kind == 1 || pn.kind == 2 || pn.kind == 3 || pn.kind == 4) = true →
      ∃ note, parseOneNote r height pn = .ok note) ∧
    ((pn.kind == 1 || pn.kind == 2 || pn.kind == 3 || pn.kind == 4) = false →
      ∃ m, parseOneNote r height pn = .error (.bailed m)) := by
  constructor
  · intro h
    simp only [Bool.or_eq_true, beq_iff_eq] at h
    unfold parseOneNote parseNoteKind
    rcases h with ((h | h) | h) | h
    · rw [h]
      norm_num [Bind.bind, Except.bind]
    · rw [h]
      norm_num [Bind.bind, Except.bind]
    · rw [h]
      norm_num [Bind.bind, Except.bind]
    · rw [h]
      norm_num [Bind.bind, Except.bind]
  · intro h
    simp only [Bool.or_eq_false_iff, beq_eq_false_iff_ne, ne_eq] at h
    obtain ⟨⟨⟨h1, h2⟩, h3⟩, h4⟩ := h
    unfold parseOneNote parseNoteKind
    rw [if_neg h1, if_neg h2, if_neg h3, if_neg h4]
    exact ⟨_, rfl⟩

theorem parseOneNote_no_panic (r : ℚ) (height : AnimFloat) (pn : PgrNote) :
    parseOneNote r height pn ≠ .error .panicked := by
  unfold parseOneNote parseNoteKind
  split_ifs <;> (intro h; simp [Bind.bind, Except.bind] at h)

theorem notes_mapM_cases (r : ℚ) (height : AnimFloat) :
    ∀ pgr : List PgrNote,
      ((∀ n ∈ pgr, (n.kind == 1 || n.kind == 2 || n.kind == 3 || n.kind == 4) = true) →
        ∃ ns, pgr.mapM (parseOneNote r height) = .ok ns) ∧
      ((∃ n ∈ pgr, (n.kind == 1 || n.kind == 2 || n.kind == 3 || n.kind == 4) = false) →
        ∃ m, pgr.mapM (parseOneNote r height) = .error (.bailed m)) := by
  intro pgr
  induction pgr with
  | nil =>
    constructor
    · intro _; exact ⟨[], rfl⟩
    · intro h; simp at h
  | cons x xs ih =>
    constructor
    · intro h
      obtain ⟨note, hnote⟩ := (parseOneNote_kind_cases r height x).1 (h x (by simp))
      obtain ⟨ns, hns⟩ := ih.1 (fun n hn => h n (List.mem_cons_of_mem _ hn))
      refine ⟨note :: ns, ?_⟩
      rw [List.mapM_cons]
      simp only [hnote, hns, Bind.bind, Except.bind, pure, Except.pure]
    · intro h
      obtain ⟨n, hn, hbad⟩ := h
      rcases List.mem_cons.mp hn with rfl | hn2
      · obtain ⟨m, hm⟩ := (parseOneNote_kind_cases r height n).2 hbad
        refine ⟨m, ?_⟩
        rw [List.mapM_cons]
        simp only [hm, Bind.bind, Except.bind]
      · cases hx : parseOneNote r height x with
        | error e =>
          cases e with
          | bailed m0 =>
            refine ⟨m0, ?_⟩
            rw [List.mapM_cons]
            simp only [hx, Bind.bind, Except.bind]
          | panicked => exact absurd hx (parseOneNote_no_panic r height x)
        | ok v =>
          obtain ⟨m, hm⟩ := ih.2 ⟨n, hn2, hbad⟩
          refine ⟨m, ?_⟩
          rw [List.mapM_cons]
          simp only [hx, hm, Bind.bind, Except.bind]

theorem parse_notes_cases (r : ℚ) (height : AnimFloat) (pgr : List PgrNote) :
    (specNotesBad pgr = true → ∃ m, parse_notes r pgr height = .error (.bailed m)) ∧
    (specNotesBad pgr = false → ∃ ns, parse_notes r pgr height = .ok ns) := by
  by_cases he : pgr.isEmpty
  · rw [List.isEmpty_iff] at he
    subst he
    constructor
    · intro h; simp [specNotesBad, notesSorted] at h
    · intro _; exact ⟨[], rfl⟩
  · unfold parse_notes
    rw [if_neg he]
    by_cases hs : notesSorted pgr
    · rw [hs]
      simp only [Bool.not_true, Bool.false_eq_true, if_false]
      unfold specNotesBad
      rw [hs]
      simp only [Bool.not_true, Bool.false_or]
      constructor
      · intro h
        rw [List.any_eq_true] at h
        obtain ⟨n, hn, hbad⟩ := h
        rw [Bool.not_eq_true'] at hbad
        exact (notes_mapM_cases r height pgr).2 ⟨n, hn, hbad⟩
      · intro h
        rw [List.any_eq_false] at h
        refine (notes_mapM_cases r height pgr).1 ?_
        intro n hn
        have := h n hn
        rw [Bool.not_eq_true', Bool.not_eq_false] at this
        exact this
    · rw [Bool.not_eq_true] at hs
      rw [hs]
      simp only [Bool.not_false, if_true]
      unfold specNotesBad
      rw [hs]
      simp only [Bool.not_false, Bool.true_or]
      constructor
      · intro _; exact ⟨_, rfl⟩
      · intro h; cases h

/-- On a non-degenerate judge line, `parse_judge_line` bails exactly when the
line is offending per the spec, and builds the line otherwise. -/
theorem parse_judge_line_cases (l : PgrJudgeLine) (mt : ℚ) (hw : NonDegenerateLine l) :
    (specBadLine l = true → ∃ m, parse_judge_line l mt = .error (.bailed m)) ∧
    (specBadLine l = false → ∃ jl, parse_judge_line l mt = .ok jl) := by
  obtain ⟨hane, hrne, hmne, hsne, h0⟩ := hw
  obtain ⟨hsb, hsg⟩ := parse_speed_events_cases (60 / l.bpm / 32) mt l.speed_events hsne h0
  by_cases hS : specEventsBad (·.start_time) (·.end_time) l.speed_events = true
  · obtain ⟨m, hm⟩ := hsb hS
    constructor
    · intro _
      exact ⟨_, by
        simp only [parse_judge_line, Bind.bind, Except.bind, hm, withPContext_bailed] <;> rfl⟩
    · intro hbl
      rw [specBadLine, hS] at hbl
      simp at hbl
  · rw [Bool.not_eq_true] at hS
    obtain ⟨hv, hokS⟩ := hsg hS
    obtain ⟨hnab, hnag⟩ := parse_notes_cases (60 / l.bpm / 32) hv l.notes_above
    by_cases hNA : specNotesBad l.notes_above = true
    · obtain ⟨m, hm⟩ := hnab hNA
      constructor
      · intro _
        exact ⟨_, by
          simp only [parse_judge_line, Bind.bind, Except.bind, hokS, withPContext_ok,
            hm, withPContext_bailed] <;> rfl⟩
      · intro hbl
        rw [specBadLine, hNA] at hbl
        simp at hbl
    · rw [Bool.not_eq_true] at hNA
      obtain ⟨na, hokNA⟩ := hnag hNA
      obtain ⟨hnbb, hnbg⟩ := parse_notes_cases (60 / l.bpm / 32) hv l.notes_below
      by_cases hNB : specNotesBad l.notes_below = true
      · obtain ⟨m, hm⟩ := hnbb hNB
        constructor
        · intro _
          exact ⟨_, by
            simp only [parse_judge_line, Bind.bind, Except.bind, hokS, withPContext_ok,
              hokNA, hm, withPContext_bailed] <;> rfl⟩
        · intro hbl
          rw [specBadLine, hNB] at hbl
          simp at hbl
      · rw [Bool.not_eq_true] at hNB
        obtain ⟨nb, hokNB⟩ := hnbg hNB
        obtain ⟨hab, hag⟩ := parse_float_events_cases (60 / l.bpm / 32) l.alpha_events hane
        by_cases hA : specEventsBad (·.start_time) (·.end_time) l.alpha_events = true
        · obtain ⟨m, hm⟩ := hab hA
          constructor
          · intro _
            exact ⟨_, by
              simp only [parse_judge_line, Bind.bind, Except.bind, hokS, withPContext_ok,
                hokNA, hokNB, hm, withPContext_bailed] <;> rfl⟩
          · intro hbl
            rw [specBadLine, hA] at hbl
            simp at hbl
        · rw [Bool.not_eq_true] at hA
          obtain ⟨av, hokA⟩ := hag hA
          obtain ⟨hrb, hrg⟩ := parse_float_events_cases (60 / l.bpm / 32) l.rotate_events hrne
          by_cases hR : specEventsBad (·.start_time) (·.end_time) l.rotate_events = true
          · obtain ⟨m, hm⟩ := hrb hR
            constructor
            · intro _
              exact ⟨_, by
                simp only [parse_judge_line, Bind.bind, Except.bind, hokS, withPContext_ok,
                  hokNA, hokNB, hokA, hm, withPContext_bailed] <;> rfl⟩
            · intro hbl
              rw [specBadLine, hR] at hbl
              simp at hbl
          · rw [Bool.not_eq_true] at hR
            obtain ⟨rv, hokR⟩ := hrg hR
            obtain ⟨hmb, hmg⟩ := parse_move_events_cases (60 / l.bpm / 32) l.move_events hmne
            by_cases hM : specEventsBad (·.start_time) (·.end_time) l.move_events = true
            · obtain ⟨m, hm⟩ := hmb hM
              constructor
              · intro _
                exact ⟨_, by
                  simp only [parse_judge_line, Bind.bind, Except.bind, hokS, withPContext_ok,
                    hokNA, hokNB, hokA, hokR, hm, withPContext_bailed] <;> rfl⟩
              · intro hbl
                rw [specBadLine, hM] at hbl
                simp at hbl
            · rw [Bool.not_eq_true] at hM
              obtain ⟨mv, hokM⟩ := hmg hM
              constructor
              · intro hbl
                rw [specBadLine, hS, hNA, hNB, hA, hR, hM] at hbl
                simp at hbl
              · intro _
                exact ⟨_, by
                  simp only [parse_judge_line, Bind.bind, Except.bind, hokS, withPContext_ok,
                    hokNA, hokNB, hokA, hokR, hokM] <;> rfl⟩

/-- Chart-level traversal: with every line non-degenerate, the enumerated
line parser succeeds when all lines are clean, bails (with an index) when
some line is offending, and any bailed index points at an offending line. -/
theorem parseLines_cases (mt : ℚ) :
    ∀ (ls : List PgrJudgeLine) (k : ℕ), (∀ l ∈ ls, NonDegenerateLine l) →
      ((∀ l ∈ ls, specBadLine l = false) → ∃ lines, parseLines mt k ls = .ok lines) ∧
      ((∃ l ∈ ls, specBadLine l = true) →
        ∃ i m, parseLines mt k ls = .error (.bailed i m)) ∧
      (∀ i m, parseLines mt k ls = .error (.bailed i m) →
        k ≤ i ∧ ∃ l, ls.get? (i - k) = some l ∧ specBadLine l = true) := by
  intro ls
  induction ls with
  | nil =>
    intro k _
    refine ⟨fun _ => ⟨[], rfl⟩, ?_, ?_⟩
    · intro h; simp at h
    · intro i m h; simp [parseLines] at h
  | cons l rest ih =>
    intro k hw
    obtain ⟨hbad, hgood⟩ := parse_judge_line_cases l mt (hw l (by simp))
    obtain ⟨ihg, ihb, ihe⟩ := ih (k + 1) (fun x hx => hw x (List.mem_cons_of_mem _ hx))
    by_cases hB : specBadLine l = true
    · obtain ⟨m, hm⟩ := hbad hB
      refine ⟨?_, ?_, ?_⟩
      · intro hall
        rw [hall l (by simp)] at hB
        cases hB
      · intro _
        exact ⟨k, _, by simp only [parseLines, hm] <;> rfl⟩
      · intro i m2 h
        simp only [parseLines, hm] at h
        obtain ⟨hk, -⟩ := (ChartErr.bailed.injEq _ _ _ _).mp
          ((Except.error.injEq _ _).mp h)
        subst hk
        exact ⟨le_refl k, l, by simp, hB⟩
    · rw [Bool.not_eq_true] at hB
      obtain ⟨jl, hjl⟩ := hgood hB
      refine ⟨?_, ?_, ?_⟩
      · intro hall
        obtain ⟨lines, hlines⟩ := ihg (fun x hx => hall x (List.mem_cons_of_mem _ hx))
        exact ⟨jl :: lines, by simp only [parseLines, hjl, hlines] <;> rfl⟩
      · intro h
        obtain ⟨x, hx, hxbad⟩ := h
        rcases List.mem_cons.mp hx with rfl | hx2
        · rw [hxbad] at hB; cases hB
        · obtain ⟨i, m, hm⟩ := ihb ⟨x, hx2, hxbad⟩
          exact ⟨i, m, by simp only [parseLines, hjl, hm] <;> rfl⟩
      · intro i m h
        simp only [parseLines, hjl] at h
        cases hrest : parseLines mt (k + 1) rest with
        | error e =>
          rw [hrest] at h
          cases e with
          | bailed i2 m2 =>
            obtain ⟨hk, x, hx, hxbad⟩ := ihe i2 m2 hrest
            obtain ⟨hi, -⟩ := (ChartErr.bailed.injEq _ _ _ _).mp
              ((Except.error.injEq _ _).mp h)
            subst hi
            refine ⟨by omega, x, ?_, hxbad⟩
            have hik : i2 - k = (i2 - (k + 1)) + 1 := by omega
            rw [hik, List.get?_cons_succ]
            exact hx
          | panicked =>
            rw [Except.error.injEq] at h
            cases h
        | ok lines =>
          rw [hrest] at h
          simp at h

/-- C4 (amended): for every structurally well-formed chart whose lines all
carry non-empty event lists and whose every line's first speed event starts
at time 0, `parse_phigros` returns an error carrying the index of an
offending judge line — and exposes no chart — if and only if some line has an
inverted event, a gap between consecutive events, a final event whose end
time is not large enough (≤ 900000000), an unsorted note list, or a note
kind code outside {1, 2, 3, 4}; otherwise it returns a fully built chart. -/
theorem c4_parse_errors (c : PgrChart)
    (hw : ∀ l ∈ c.judge_line_list, NonDegenerateLine l) :
    ((∃ l ∈ c.judge_line_list, specBadLine l = true) ↔
      ∃ i m, parse_phigros c = .error (.bailed i m)) ∧
    (∀ i m, parse_phigros c = .error (.bailed i m) →
      ∃ l, c.judge_line_list.get? i = some l ∧ specBadLine l = true) ∧
    ((∀ l ∈ c.judge_line_list, specBadLine l = false) →
      ∃ chart, parse_phigros c = .ok chart) := by
  obtain ⟨hg, hb, he⟩ := parseLines_cases (chartMaxTime c) c.judge_line_list 0 hw
  have hquot : ∀ i m, parse_phigros c = .error (.bailed i m) →
      parseLines (chartMaxTime c) 0 c.judge_line_list = .error (.bailed i m) := by
    intro i m h
    simp only [parse_phigros, Bind.bind, Except.bind] at h
    cases hpl : parseLines (chartMaxTime c) 0 c.judge_line_list with
    | error e =>
      rw [hpl] at h
      dsimp only at h
      rw [(Except.error.injEq _ _).mp h]
    | ok lines => rw [hpl] at h; simp at h
  refine ⟨⟨?_, ?_⟩, ?_, ?_⟩
  · intro hex
    obtain ⟨i, m, hm⟩ := hb hex
    exact ⟨i, m, by simp only [parse_phigros, Bind.bind, Except.bind, hm]⟩
  · intro h
    obtain ⟨i, m, hm⟩ := h
    obtain ⟨-, x, hx, hxbad⟩ := he i m (hquot i m hm)
    rw [Nat.sub_zero] at hx
    exact ⟨x, List.get?_mem hx, hxbad⟩
  · intro i m hm
    obtain ⟨-, x, hx, hxbad⟩ := he i m (hquot i m hm)
    rw [Nat.sub_zero] at hx
    exact ⟨x, hx, hxbad⟩
  · intro hall
    obtain ⟨lines, hl⟩ := hg hall
    exact ⟨_, by simp only [parse_phigros, Bind.bind, Except.bind, hl] <;> rfl⟩

/-- C4 (counterexample): a chart whose single line satisfies every condition
enumerated by the claim (non-empty valid event lists, sorted notes, known
kinds) but whose first speed event starts at time 1 makes `parse_phigros`
panic via the `assert_eq!`, returning neither a line-indexed error nor a
chart. -/
theorem c4_assert_counterexample :
    specBadLine ⟨120, [⟨0, 1000000000, 1, 1, 1, 1⟩], [⟨0, 1000000000, 1, 1, 1, 1⟩],
        [⟨0, 1000000000, 1, 1, 1, 1⟩], [⟨1, 1000000000, 1, 0⟩], [], []⟩ = false ∧
    parse_phigros ⟨0, [⟨120, [⟨0, 1000000000, 1, 1, 1, 1⟩], [⟨0, 1000000000, 1, 1, 1, 1⟩],
        [⟨0, 1000000000, 1, 1, 1, 1⟩], [⟨1, 1000000000, 1, 0⟩], [], []⟩]⟩ =
      .error .panicked := by
  constructor
  · norm_num [specBadLine, specEventsBad, specNotesBad, contiguousEvents, notesSorted]
  · norm_num [parse_phigros, parseLines, parse_judge_line, parse_speed_events,
      validateEvents, contiguousEvents, withPContext, Bind.bind, Except.bind,
      chartMaxTime, lineMaxTime, maxOrZero]

/-- C4 (witness): a chart with one clean line (contiguous events ending past
900000000, speed starting at 0, no notes) parses to a chart. -/
theorem c4_parse_errors_witness :
    ∃ chart, parse_phigros ⟨0, [⟨120, [⟨0, 1000000000, 1, 1, 1, 1⟩],
        [⟨0, 1000000000, 1, 1, 1, 1⟩], [⟨0, 1000000000, 1, 1, 1, 1⟩],
        [⟨0, 1000000000, 1, 0⟩], [], []⟩]⟩ = .ok chart := by
  refine (c4_parse_errors _ ?_).2.2 ?_
  · intro l hl
    simp only [List.mem_singleton] at hl
    subst hl
    refine ⟨by simp, by simp, by simp, by simp, ?_⟩
    intro e he
    simp only [List.head?_cons, Option.some.injEq] at he
    rw [← he]
  · intro l hl
    simp only [List.mem_singleton] at hl
    subst hl
    norm_num [specBadLine, specEventsBad, specNotesBad, contiguousEvents, notesSorted]

/-- C10 (counterexample): the claim states that every judge line with an
empty alpha/rotate/move/speed event list panics; but a line with an empty
alpha list and an inverted speed event returns the line's bailed error
(speed events are parsed first), so parsing does not panic on every such
line. -/
theorem c10_error_before_panic_counterexample :
    (⟨120, [], [], [], [⟨1, 0, 1, 0⟩], [], []⟩ : PgrJudgeLine).alpha_events = [] ∧
    parse_judge_line ⟨120, [], [], [], [⟨1, 0, 1, 0⟩], [], []⟩ 10 =
      .error (.bailed ("Failed to parse speed events" ++ ": " ++ "Invalid time range")) := by
  constructor
  · rfl
  · norm_num [parse_judge_line, parse_speed_events, validateEvents, withPContext,
      Bind.bind, Except.bind]

/-- C10 (amended): chart construction is not total as a `Result`-returning
function: a line with an empty speed event list panics unconditionally
(via the `len() - 1` underflow / `last().unwrap()` of `validate_events!` on
an empty list); a line with an empty alpha, rotate, or move event list
panics provided every stage parsed before it succeeds (the parse order is
speed events, notes above, notes below, alpha, rotate, move); and
`validate_events!` itself panics on any empty list, instead of returning the
line-indexed contextual error used for other invalid inputs. -/
theorem c10_degenerate_panics :
    (∀ (l : PgrJudgeLine) (mt : ℚ), l.speed_events = [] →
      parse_judge_line l mt = .error .panicked) ∧
    (∀ (l : PgrJudgeLine) (mt : ℚ) (hv : AnimFloat) (na nb : List PNote),
      parse_speed_events (60 / l.bpm / 32) l.speed_events mt = .ok hv →
      parse_notes (60 / l.bpm / 32) l.notes_above hv = .ok na →
      parse_notes (60 / l.bpm / 32) l.notes_below hv = .ok nb →
      l.alpha_events = [] → parse_judge_line l mt = .error .panicked) ∧
    (∀ (l : PgrJudgeLine) (mt : ℚ) (hv av : AnimFloat) (na nb : List PNote),
      parse_speed_events (60 / l.bpm / 32) l.speed_events mt = .ok hv →
      parse_notes (60 / l.bpm / 32) l.notes_above hv = .ok na →
      parse_notes (60 / l.bpm / 32) l.notes_below hv = .ok nb →
      parse_float_events (60 / l.bpm / 32) l.alpha_events = .ok av →
      l.rotate_events = [] → parse_judge_line l mt = .error .panicked) ∧
    (∀ (l : PgrJudgeLine) (mt : ℚ) (hv av rv : AnimFloat) (na nb : List PNote),
      parse_speed_events (60 / l.bpm / 32) l.speed_events mt = .ok hv →
      parse_notes (60 / l.bpm / 32) l.notes_above hv = .ok na →
      parse_notes (60 / l.bpm / 32) l.notes_below hv = .ok nb →
      parse_float_events (60 / l.bpm / 32) l.alpha_events = .ok av →
      parse_float_events (60 / l.bpm / 32) l.rotate_events = .ok rv →
      l.move_events = [] → parse_judge_line l mt = .error .panicked) ∧
    (∀ startT endT : PgrEvent → ℚ,
      validateEvents startT endT [] = .error .panicked) := by
  refine ⟨?_, ?_, ?_, ?_, fun _ _ => rfl⟩
  · intro l mt hs
    simp only [parse_judge_line, Bind.bind, Except.bind, hs]
    simp only [parse_speed_events, validateEvents, List.getLast?_nil, Bind.bind,
      Except.bind, withPContext_panicked]
  · intro l mt hv na nb hS hNA hNB ha
    simp only [parse_judge_line, Bind.bind, Except.bind, hS, withPContext_ok,
      hNA, hNB, ha]
    simp only [parse_float_events, validateEvents, List.getLast?_nil, Bind.bind,
      Except.bind, withPContext_panicked]
  · intro l mt hv av na nb hS hNA hNB hA hr
    simp only [parse_judge_line, Bind.bind, Except.bind, hS, withPContext_ok,
      hNA, hNB, hA, hr]
    simp only [parse_float_events, validateEvents, List.getLast?_nil, Bind.bind,
      Except.bind, withPContext_panicked]
  · intro l mt hv av rv na nb hS hNA hNB hA hR hm
    simp only [parse_judge_line, Bind.bind, Except.bind, hS, withPContext_ok,
      hNA, hNB, hA, hR, hm]
    simp only [parse_move_events, validateEvents, List.getLast?_nil, Bind.bind,
      Except.bind, withPContext_panicked]

/-- C10 (witness): a line with an empty speed event list panics. -/
theorem c10_degenerate_panics_witness :
    parse_judge_line ⟨120, [], [], [], [], [], []⟩ 5 = .error .panicked :=
  c10_degenerate_panics.1 ⟨120, [], [], [], [], [], []⟩ 5 rfl

/-! ## Run-block lemmas -/

theorem takeWhile_get (p : CNote → Bool) :
    ∀ (l : List CNote) (k : ℕ), k < (l.takeWhile p).length →
      ∃ x, l.get? k = some x ∧ p x = true
  | [], k, h => by simp [List.takeWhile] at h
  | a :: t, k, h => by
    by_cases hp : p a
    · rw [List.takeWhile_cons_of_pos hp] at h
      cases k with
      | zero => exact ⟨a, rfl, hp⟩
      | succ k2 =>
        rw [List.length_cons, Nat.succ_lt_succ_iff] at h
        simpa using takeWhile_get p t k2 h
    · rw [List.takeWhile_cons_of_neg hp] at h
      simp at h

theorem takeWhile_stop (p : CNote → Bool) :
    ∀ l : List CNote,
      l.get? (l.takeWhile p).length = none ∨
      ∃ x, l.get? (l.takeWhile p).length = some x ∧ p x = false
  | [] => Or.inl rfl
  | a :: t => by
    by_cases hp : p a
    · rw [List.takeWhile_cons_of_pos hp, List.length_cons]
      simpa using takeWhile_stop p t
    · rw [List.takeWhile_cons_of_neg hp]
      exact Or.inr ⟨a, rfl, Bool.not_eq_true _ ▸ hp⟩

theorem runEnd_ge (notes : List CNote) (keep : CNote → Bool) (i : ℕ) :
    i + 1 ≤ runEnd notes keep i := by
  unfold runEnd
  omega

theorem runEnd_le_length (notes : List CNote) (keep : CNote → Bool) (i : ℕ)
    (h : i < notes.length) : runEnd notes keep i ≤ notes.length := by
  unfold runEnd
  have h1 := ((notes.drop (i + 1)).takeWhile_sublist keep).length_le
  rw [List.length_drop] at h1
  omega

theorem runEnd_mem (notes : List CNote) (keep : CNote → Bool) (i j : ℕ)
    (h1 : i < j) (h2 : j < runEnd notes keep i) :
    ∃ m, notes.get? j = some m ∧ keep m = true := by
  unfold runEnd at h2
  obtain ⟨x, hx, hp⟩ := takeWhile_get keep (notes.drop (i + 1)) (j - (i + 1)) (by omega)
  rw [List.get?_drop] at hx
  refine ⟨x, ?_, hp⟩
  rw [show i + 1 + (j - (i + 1)) = j by omega] at hx
  exact hx

theorem runEnd_stop (notes : List CNote) (keep : CNote → Bool) (i : ℕ) :
    notes.get? (runEnd notes keep i) = none ∨
    ∃ m, notes.get? (runEnd notes keep i) = some m ∧ keep m = false := by
  have := takeWhile_stop keep (notes.drop (i + 1))
  rw [List.get?_drop] at this
  unfold runEnd
  exact this

theorem runEnd_step (notes : List CNote) (keep : CNote → Bool) (i : ℕ) (m : CNote)
    (hm : notes.get? (i + 1) = some m) (hk : keep m = true) :
    runEnd notes keep i = runEnd notes keep (i + 1) := by
  have hlt : i + 1 < notes.length := (List.get?_eq_some.mp hm).1
  have hm2 : notes[i + 1]? = some m := by
    rw [← List.get?_eq_getElem?]
    exact hm
  have hdrop : notes.drop (i + 1) = m :: notes.drop (i + 1 + 1) := by
    rw [List.drop_eq_getElem_cons hlt]
    obtain ⟨h2, hg2⟩ := List.getElem?_eq_some.mp hm2
    rw [hg2]
  unfold runEnd
  rw [hdrop, List.takeWhile_cons_of_pos hk, List.length_cons]
  omega

theorem runEnd_stop_next (notes : List CNote) (keep : CNote → Bool) (i : ℕ) (m : CNote)
    (hm : notes.get? (i + 1) = some m) (hk : keep m = false) :
    runEnd notes keep i = i + 1 := by
  have hlt : i + 1 < notes.length := (List.get?_eq_some.mp hm).1
  have hm2 : notes[i + 1]? = some m := by
    rw [← List.get?_eq_getElem?]
    exact hm
  have hdrop : notes.drop (i + 1) = m :: notes.drop (i + 1 + 1) := by
    rw [List.drop_eq_getElem_cons hlt]
    obtain ⟨h2, hg2⟩ := List.getElem?_eq_some.mp hm2
    rw [hg2]
  unfold runEnd
  rw [hdrop, List.takeWhile_cons_of_neg (by rw [hk]; exact Bool.false_ne_true)]
  rfl

theorem runEnd_stop_none (notes : List CNote) (keep : CNote → Bool) (i : ℕ)
    (hm : notes.get? (i + 1) = none) :
    runEnd notes keep i = i + 1 := by
  have : notes.drop (i + 1) = [] := by
    rw [List.drop_eq_nil_iff_le]
    exact List.get?_eq_none.mp hm
  unfold runEnd
  rw [this]
  rfl

/-- Every interior position of a run block scans to the same block end. -/
theorem runEnd_stable (notes : List CNote) (keep : CNote → Bool) :
    ∀ (d i j : ℕ), j - i ≤ d → i ≤ j → j < runEnd notes keep i →
      runEnd notes keep j = runEnd notes keep i := by
  intro d
  induction d with
  | zero =>
    intro i j hd hij _
    have : i = j := by omega
    rw [this]
  | succ d2 ih =>
    intro i j hd hij hjE
    rcases Nat.eq_or_lt_of_le hij with rfl | hlt
    · rfl
    · obtain ⟨m, hm, hk⟩ := runEnd_mem notes keep i (i + 1)
        (by omega) (by
          rcases Nat.eq_or_lt_of_le (runEnd_ge notes keep i) with hE | hE
          · omega
          · omega)
      have hstep := runEnd_step notes keep i m hm hk
      have : j < runEnd notes keep (i + 1) := by rw [← hstep]; exact hjE
      rw [ih (i + 1) j (by omega) (by omega) this, hstep]

/-! ## Sort-order lemmas -/

theorem sorted_rel (notes : List CNote) (hs : SortedNotes notes) (i j : ℕ)
    (hij : i < j) (a b : CNote) (ha : notes.get? i = some a) (hb : notes.get? j = some b) :
    noteLE a b := by
  rw [List.get?_eq_getElem?] at ha hb
  obtain ⟨hia, hga⟩ := List.getElem?_eq_some.mp ha
  obtain ⟨hib, hgb⟩ := List.getElem?_eq_some.mp hb
  rw [← hga, ← hgb]
  exact List.pairwise_iff_getElem.mp hs i j hia hib hij

theorem sorted_plain_mono (notes : List CNote) (hs : SortedNotes notes) (i j : ℕ)
    (hij : i ≤ j) (hj : j < notes.length) (hp : plainAt notes i = true) :
    plainAt notes j = true := by
  rcases Nat.eq_or_lt_of_le hij with rfl | hlt
  · exact hp
  · have hi : i < notes.length := lt_trans hlt hj
    cases ha : notes.get? i with
    | none => rw [plainAt, ha] at hp; cases hp
    | some a =>
      cases hb : notes.get? j with
      | none => rw [List.get?_eq_none] at hb; omega
      | some b =>
        have := sorted_rel notes hs i j hlt a b ha hb
        rw [plainAt, ha] at hp
        simp only [Option.map_some', Option.getD_some] at hp
        rw [plainAt, hb]
        simp only [Option.map_some', Option.getD_some]
        rcases this with ⟨h1, -⟩ | ⟨h1, -⟩
        · rw [hp] at h1; cases h1
        · rw [← h1]; exact hp

theorem sorted_above_mono (notes : List CNote) (hs : SortedNotes notes) (i j : ℕ)
    (hij : i ≤ j) (hj : j < notes.length) (hp : plainAt notes i = true)
    (hab : aboveAt notes i = false) : aboveAt notes j = false := by
  rcases Nat.eq_or_lt_of_le hij with rfl | hlt
  · exact hab
  · have hi : i < notes.length := lt_trans hlt hj
    cases ha : notes.get? i with
    | none => rw [plainAt, ha] at hp; cases hp
    | some a =>
      cases hb : notes.get? j with
      | none => rw [List.get?_eq_none] at hb; omega
      | some b =>
        have hrel := sorted_rel notes hs i j hlt a b ha hb
        rw [plainAt, ha] at hp
        rw [aboveAt, ha] at hab
        simp only [Option.map_some', Option.getD_some] at hp hab
        rw [aboveAt, hb]
        simp only [Option.map_some', Option.getD_some]
        rcases hrel with ⟨h1, h2⟩ | ⟨-, ⟨h1, -⟩ | ⟨h1, -⟩⟩
        · rw [hp] at h1; cases h1
        · rw [hab] at h1; cases h1
        · rw [← h1]; exact hab

theorem sorted_offset_mono (notes : List CNote) (hs : SortedNotes notes) (i j : ℕ)
    (hij : i ≤ j) (a b : CNote) (ha : notes.get? i = some a) (hb : notes.get? j = some b)
    (hpl : a.plain = b.plain) (hab : a.above = b.above) (hsp : a.speed = b.speed) :
    a.height + a.ytr ≤ b.height + b.ytr := by
  rcases Nat.eq_or_lt_of_le hij with rfl | hlt
  · rw [ha] at hb
    rw [(Option.some.injEq _ _).mp hb]
  · have hrel := sorted_rel notes hs i j hlt a b ha hb
    rcases hrel with ⟨h1, h2⟩ | ⟨-, ⟨h1, h2⟩ | ⟨-, h1 | ⟨-, h1⟩⟩⟩
    · rw [hpl, h2] at h1; cases h1
    · rw [hab, h2] at h1; cases h1
    · rw [hsp] at h1; exact absurd h1 (lt_irrefl _)
    · exact h1

/-! ## Transfer between passes (`CoreSame`) -/

theorem coreSame_get (xs ys : List CNote) (h : CoreSame xs ys) (i : ℕ) :
    (xs.get? i = none ∧ ys.get? i = none) ∨
      ∃ a b, xs.get? i = some a ∧ ys.get? i = some b ∧ coreEq a b := by
  induction h generalizing i with
  | nil => left; simp
  | cons hab htail ih =>
    cases i with
    | zero => right; exact ⟨_, _, rfl, rfl, hab⟩
    | succ i2 => simpa using ih i2

theorem plainAt_congr (xs ys : List CNote) (h : CoreSame xs ys) (i : ℕ) :
    plainAt xs i = plainAt ys i := by
  rcases coreSame_get xs ys h i with ⟨h1, h2⟩ | ⟨a, b, h1, h2, he⟩
  · rw [plainAt, plainAt, h1, h2]
  · rw [plainAt, plainAt, h1, h2]
    simp only [Option.map_some', Option.getD_some]
    exact he.1

theorem aboveAt_congr (xs ys : List CNote) (h : CoreSame xs ys) (i : ℕ) :
    aboveAt xs i = aboveAt ys i := by
  rcases coreSame_get xs ys h i with ⟨h1, h2⟩ | ⟨a, b, h1, h2, he⟩
  · rw [aboveAt, aboveAt, h1, h2]
  · rw [aboveAt, aboveAt, h1, h2]
    simp only [Option.map_some', Option.getD_some]
    exact he.2.1

theorem speedAt_congr (xs ys : List CNote) (h : CoreSame xs ys) (i : ℕ) :
    speedAt xs i = speedAt ys i := by
  rcases coreSame_get xs ys h i with ⟨h1, h2⟩ | ⟨a, b, h1, h2, he⟩
  · rw [speedAt, speedAt, h1, h2]
  · rw [speedAt, speedAt, h1, h2]
    simp only [Option.map_some', Option.getD_some]
    exact he.2.2

theorem takeWhile_length_congr (p q : CNote → Bool) :
    ∀ (xs ys : List CNote), List.Forall₂ coreEq xs ys →
      (∀ a b, coreEq a b → p a = q b) →
      (xs.takeWhile p).length = (ys.takeWhile q).length := by
  intro xs ys h hk
  induction h with
  | nil => rfl
  | @cons a b l1 l2 hab htail ih =>
    by_cases hp : p a
    · rw [List.takeWhile_cons_of_pos hp,
        List.takeWhile_cons_of_pos (by rw [← hk a b hab]; exact hp)]
      simp only [List.length_cons, ih]
    · rw [List.takeWhile_cons_of_neg hp,
        List.takeWhile_cons_of_neg (by rw [← hk a b hab]; exact hp)]

theorem runEnd_congr (xs ys : List CNote) (h : CoreSame xs ys) (p q : CNote → Bool)
    (hk : ∀ a b, coreEq a b → p a = q b) (i : ℕ) :
    runEnd xs p i = runEnd ys q i := by
  unfold runEnd
  have hd : List.Forall₂ coreEq (xs.drop (i + 1)) (ys.drop (i + 1)) :=
    List.forall₂_drop (i + 1) h
  rw [takeWhile_length_congr p q (xs.drop (i + 1)) (ys.drop (i + 1)) hd hk]

/-- Specification of the cursor-advance loop: relative to the current note's
run block, a surviving cursor lands on the first unjudged member, and the
cursor is dropped exactly when the whole block (from the cursor on) is
judged.  `keep` is the block-continuation test indexed by the run speed;
`next` agrees with it at the current note's speed, and continuing keeps the
speed. -/
theorem advanceRun_spec (notes : List CNote) (next : CNote → CNote → Bool)
    (keep : ℚ → CNote → Bool)
    (hnk : ∀ n m, next n m = keep n.speed m)
    (hsp : ∀ sp m, keep sp m = true → m.speed = sp) :
    ∀ (i : ℕ) (n : CNote), notes.get? i = some n →
      (∀ j, advanceRun notes next i = some j →
        i ≤ j ∧ j < runEnd notes (keep n.speed) i ∧ judgedAt notes j = false ∧
        ∀ m2, i ≤ m2 → m2 < j → judgedAt notes m2 = true) ∧
      (advanceRun notes next i = none →
        ∀ m2, i ≤ m2 → m2 < runEnd notes (keep n.speed) i → judgedAt notes m2 = true) := by
  intro i
  induction i using advanceRun.induct notes next with
  | case1 i hget =>
    intro n hn
    rw [hget] at hn
    cases hn
  | case2 i n0 hget hj m hm hnext ih =>
    intro n hn
    rw [hget, Option.some.injEq] at hn
    subst hn
    have hkeep : keep n0.speed m = true := by rw [← hnk]; exact hnext
    have hmsp : m.speed = n0.speed := hsp _ _ hkeep
    have hE : runEnd notes (keep n0.speed) i = runEnd notes (keep n0.speed) (i + 1) :=
      runEnd_step notes (keep n0.speed) i m hm hkeep
    have heq : advanceRun notes next i = advanceRun notes next (i + 1) := by
      rw [advanceRun, hget]
      dsimp only
      rw [if_pos hj, hm]
      dsimp only
      rw [if_pos hnext]
    have hji : judgedAt notes i = true := by
      rw [judgedAt, hget]
      simp only [Option.map_some', Option.getD_some]
      exact hj
    obtain ⟨ihs, ihn⟩ := ih m hm
    constructor
    · intro j hjadv
      rw [heq] at hjadv
      obtain ⟨h1, h2, h3, h4⟩ := ihs j hjadv
      rw [hmsp] at h2
      refine ⟨by omega, by rw [hE]; exact h2, h3, ?_⟩
      intro m2 hm2a hm2b
      rcases Nat.eq_or_lt_of_le hm2a with rfl | hlt
      · exact hji
      · exact h4 m2 (by omega) hm2b
    · intro hnone m2 hm2a hm2b
      rw [heq] at hnone
      have := ihn
      rw [hmsp] at this
      rcases Nat.eq_or_lt_of_le hm2a with rfl | hlt
      · exact hji
      · exact this hnone m2 (by omega) (by rw [← hE]; exact hm2b)
  | case3 i n0 hget hj m hm hnext =>
    intro n hn
    rw [hget, Option.some.injEq] at hn
    subst hn
    have hnextf : next n0 m = false := by
      rw [← Bool.not_eq_true]
      exact hnext
    have hkeep : keep n0.speed m = false := by
      rw [← hnk]
      exact hnextf
    have hE : runEnd notes (keep n0.speed) i = i + 1 :=
      runEnd_stop_next notes (keep n0.speed) i m hm hkeep
    have hadvn : advanceRun notes next i = none := by
      rw [advanceRun, hget]
      dsimp only
      rw [if_pos hj, hm]
      dsimp only
      rw [if_neg hnext]
    constructor
    · intro j hjadv
      rw [hadvn] at hjadv
      cases hjadv
    · intro _ m2 hm2a hm2b
      rw [hE] at hm2b
      have : m2 = i := by omega
      subst this
      rw [judgedAt, hget]
      simp only [Option.map_some', Option.getD_some]
      exact hj
  | case4 i n0 hget hj hm =>
    intro n hn
    rw [hget, Option.some.injEq] at hn
    subst hn
    have hE : runEnd notes (keep n0.speed) i = i + 1 :=
      runEnd_stop_none notes (keep n0.speed) i hm
    have hadvn : advanceRun notes next i = none := by
      rw [advanceRun, hget]
      dsimp only
      rw [if_pos hj, hm]
    constructor
    · intro j hjadv
      rw [hadvn] at hjadv
      cases hjadv
    · intro _ m2 hm2a hm2b
      rw [hE] at hm2b
      have : m2 = i := by omega
      subst this
      rw [judgedAt, hget]
      simp only [Option.map_some', Option.getD_some]
      exact hj
  | case5 i n0 hget hj =>
    intro n hn
    rw [hget, Option.some.injEq] at hn
    subst hn
    have hadv : advanceRun notes next i = some i := by
      rw [advanceRun, hget]
      dsimp only
      rw [if_neg hj]
    constructor
    · intro j hjadv
      rw [hadv, Option.some.injEq] at hjadv
      subst hjadv
      refine ⟨le_refl i, lt_of_lt_of_le (by omega) (runEnd_ge notes _ i), ?_, ?_⟩
      · rw [judgedAt, hget]
        simp only [Option.map_some', Option.getD_some]
        rw [← Bool.not_eq_true]
        exact hj
      · intro m2 h1 h2
        omega
    · intro hnone
      rw [hadv] at hnone
      cases hnone

theorem speedAt_of_get (notes : List CNote) (i : ℕ) (n : CNote)
    (h : notes.get? i = some n) : speedAt notes i = n.speed := by
  rw [speedAt, h]
  rfl

/-- Structure of the above-run head collection: every head is a valid index
of an above note at or past the start, and the loop's final index is at or
past the start, sitting at the list's end or at a non-above note. -/
theorem buildAbove_cursors (notes : List CNote) :
    ∀ i, (∀ c ∈ (buildAbove notes i).1,
        i ≤ c ∧ ∃ n, notes.get? c = some n ∧ n.above = true) ∧
      i ≤ (buildAbove notes i).2 ∧
      (notes.get? (buildAbove notes i).2 = none ∨
        ∃ n, notes.get? (buildAbove notes i).2 = some n ∧ n.above = false) := by
  intro i
  induction i using buildAbove.induct notes with
  | case1 i n hget habove ih =>
    rw [buildAbove, hget]
    dsimp only
    rw [if_pos habove]
    dsimp only
    obtain ⟨ihc, ihf, ihstop⟩ := ih
    have hE := runEnd_ge notes (aboveKeep n.speed) i
    refine ⟨?_, by omega, ihstop⟩
    intro c hc
    rcases List.mem_cons.mp hc with rfl | hc2
    · exact ⟨le_refl c, n, hget, habove⟩
    · obtain ⟨h1, h2⟩ := ihc c hc2
      exact ⟨by omega, h2⟩
  | case2 i n hget habove =>
    rw [buildAbove, hget]
    dsimp only
    rw [if_neg habove]
    refine ⟨by simp, le_refl i, Or.inr ⟨n, hget, ?_⟩⟩
    rw [← Bool.not_eq_true]
    exact habove
  | case3 i hget =>
    rw [buildAbove, hget]
    exact ⟨by simp, le_refl i, Or.inl hget⟩

/-- Distinct above-run heads track disjoint blocks, all ending at or before
the loop's final index. -/
theorem buildAbove_sep (notes : List CNote) :
    ∀ i, ∀ c ∈ (buildAbove notes i).1,
      runEnd notes (aboveKeep (speedAt notes c)) c ≤ (buildAbove notes i).2 ∧
      ∀ c2 ∈ (buildAbove notes i).1, c2 = c ∨ c2 < c ∨
        runEnd notes (aboveKeep (speedAt notes c)) c ≤ c2 := by
  intro i
  induction i using buildAbove.induct notes with
  | case1 i n hget habove ih =>
    rw [buildAbove, hget]
    dsimp only
    rw [if_pos habove]
    dsimp only
    intro c hc
    obtain ⟨ihc, ihf, -⟩ := buildAbove_cursors notes (runEnd notes (aboveKeep n.speed) i)
    rcases List.mem_cons.mp hc with rfl | hc2
    · rw [speedAt_of_get notes c n hget]
      refine ⟨ihf, ?_⟩
      intro c2 hc2
      rcases List.mem_cons.mp hc2 with rfl | hc3
      · exact Or.inl rfl
      · exact Or.inr (Or.inr (ihc c2 hc3).1)
    · obtain ⟨h1, h2⟩ := ih c hc2
      refine ⟨h1, ?_⟩
      intro c2 hcc
      rcases List.mem_cons.mp hcc with rfl | hc4
      · have := (ihc c hc2).1
        have := runEnd_ge notes (aboveKeep n.speed) c2
        exact Or.inr (Or.inl (by omega))
      · exact h2 c2 hc4
  | case2 i n hget habove =>
    rw [buildAbove, hget]
    dsimp only
    rw [if_neg habove]
    intro c hc
    simp at hc
  | case3 i hget =>
    rw [buildAbove, hget]
    intro c hc
    simp at hc

/-- Every below-run head is a valid index at or past the start. -/
theorem buildBelow_cursors (notes : List CNote) :
    ∀ i, ∀ c ∈ buildBelow notes i, i ≤ c ∧ ∃ n, notes.get? c = some n := by
  intro i
  induction i using buildBelow.induct notes with
  | case1 i n hget ih =>
    rw [buildBelow, hget]
    dsimp only
    intro c hc
    have hE := runEnd_ge notes (belowKeep n.speed) i
    rcases List.mem_cons.mp hc with rfl | hc2
    · exact ⟨le_refl c, n, hget⟩
    · obtain ⟨h1, h2⟩ := ih c hc2
      exact ⟨by omega, h2⟩
  | case2 i hget =>
    rw [buildBelow, hget]
    intro c hc
    simp at hc

/-- Distinct below-run heads track disjoint blocks. -/
theorem buildBelow_sep (notes : List CNote) :
    ∀ i, ∀ c ∈ buildBelow notes i, ∀ c2 ∈ buildBelow notes i, c2 = c ∨ c2 < c ∨
      runEnd notes (belowKeep (speedAt notes c)) c ≤ c2 := by
  intro i
  induction i using buildBelow.induct notes with
  | case1 i n hget ih =>
    rw [buildBelow, hget]
    dsimp only
    intro c hc
    have ihc := buildBelow_cursors notes (runEnd notes (belowKeep n.speed) i)
    rcases List.mem_cons.mp hc with rfl | hc2
    · rw [speedAt_of_get notes c n hget]
      intro c2 hcc
      rcases List.mem_cons.mp hcc with rfl | hc3
      · exact Or.inl rfl
      · exact Or.inr (Or.inr (ihc c2 hc3).1)
    · intro c2 hcc
      rcases List.mem_cons.mp hcc with rfl | hc4
      · have := (ihc c hc2).1
        have := runEnd_ge notes (belowKeep n.speed) c2
        exact Or.inr (Or.inl (by omega))
      · exact ih c hc2 c2 hc4
  | case2 i hget =>
    rw [buildBelow, hget]
    intro c hc
    simp at hc

theorem plainAt_of_get (notes : List CNote) (i : ℕ) (n : CNote)
    (h : notes.get? i = some n) : plainAt notes i = n.plain := by
  rw [plainAt, h]
  rfl

theorem aboveAt_of_get (notes : List CNote) (i : ℕ) (n : CNote)
    (h : notes.get? i = some n) : aboveAt notes i = n.above := by
  rw [aboveAt, h]
  rfl

theorem judgedAt_of_get (notes : List CNote) (i : ℕ) (n : CNote)
    (h : notes.get? i = some n) : judgedAt notes i = n.judged := by
  rw [judgedAt, h]
  rfl

/-- On the sorted sequence, every fresh above cursor is a valid index of a
plain above note. -/
theorem reset_above_inv (notes : List CNote) (hs : SortedNotes notes) :
    ∀ c ∈ (JudgeLineCache.reset notes).above_indices,
      c < notes.length ∧ plainAt notes c = true ∧ aboveAt notes c = true := by
  intro c hc
  obtain ⟨ihc, -, -⟩ := buildAbove_cursors notes (notes.findIdx (·.plain))
  obtain ⟨h1, n, hn, hab⟩ := ihc c hc
  have hlen : c < notes.length := (List.get?_eq_some.mp hn).1
  have hstart : notes.findIdx (·.plain) < notes.length := by omega
  have hps : plainAt notes (notes.findIdx (·.plain)) = true := by
    have h2 := @List.findIdx_get _ _ _ hstart
    rw [plainAt, List.get?_eq_get hstart]
    simpa using h2
  exact ⟨hlen, sorted_plain_mono notes hs _ c h1 hlen hps,
    by rw [aboveAt_of_get notes c n hn]; exact hab⟩

/-- On the sorted sequence, every fresh below cursor is a valid index of a
plain non-above note. -/
theorem reset_below_inv (notes : List CNote) (hs : SortedNotes notes) :
    ∀ c ∈ (JudgeLineCache.reset notes).below_indices,
      c < notes.length ∧ plainAt notes c = true ∧ aboveAt notes c = false := by
  intro c hc
  simp only [JudgeLineCache.reset] at hc
  obtain ⟨hfc, n, hn⟩ :=
    buildBelow_cursors notes (buildAbove notes (notes.findIdx (·.plain))).2 c hc
  have hlen : c < notes.length := (List.get?_eq_some.mp hn).1
  obtain ⟨-, hsf, hstop⟩ := buildAbove_cursors notes (notes.findIdx (·.plain))
  have hstart : notes.findIdx (·.plain) < notes.length := by omega
  have hps : plainAt notes (notes.findIdx (·.plain)) = true := by
    have h2 := @List.findIdx_get _ _ _ hstart
    rw [plainAt, List.get?_eq_get hstart]
    simpa using h2
  have hplc : plainAt notes c = true :=
    sorted_plain_mono notes hs _ c (by omega) hlen hps
  refine ⟨hlen, hplc, ?_⟩
  rcases hstop with hnone | ⟨nf, hnf, hnfab⟩
  · rw [List.get?_eq_none] at hnone
    omega
  · have hflen : (buildAbove notes (notes.findIdx (·.plain))).2 < notes.length :=
      (List.get?_eq_some.mp hnf).1
    have hplf : plainAt notes (buildAbove notes (notes.findIdx (·.plain))).2 = true :=
      sorted_plain_mono notes hs _ _ hsf hflen hps
    have habf : aboveAt notes (buildAbove notes (notes.findIdx (·.plain))).2 = false := by
      rw [aboveAt_of_get notes _ nf hnf]
      exact hnfab
    exact sorted_above_mono notes hs _ c hfc hlen hplf habf

theorem nextAbove_eq_keep : ∀ n m : CNote, nextAbove n m = aboveKeep n.speed m :=
  fun _ _ => rfl

theorem nextBelow_eq_keep : ∀ n m : CNote, nextBelow n m = belowKeep n.speed m :=
  fun _ _ => rfl

theorem aboveKeep_speed : ∀ (sp : ℚ) (m : CNote), aboveKeep sp m = true → m.speed = sp := by
  intro sp m h
  rw [aboveKeep, Bool.and_eq_true, beq_iff_eq] at h
  exact h.2

theorem belowKeep_speed : ∀ (sp : ℚ) (m : CNote), belowKeep sp m = true → m.speed = sp := by
  intro sp m h
  rw [belowKeep, beq_iff_eq] at h
  exact h

theorem coreSame_length (xs ys : List CNote) (h : CoreSame xs ys) :
    xs.length = ys.length := h.length_eq

/-- Structural invariant of every evolved cache: each surviving cursor is a
valid index of a plain note on its own side, lying inside the run block of
one of the fresh (reset-time) cursors, with the run's speed. -/
theorem evolve_cursor_inv (base : List CNote) (flags : ℕ → List CNote)
    (hs : SortedNotes base) (hcs : ∀ k, CoreSame base (flags k)) :
    ∀ k,
      (∀ i ∈ (evolve base flags k).above_indices,
        i < base.length ∧ plainAt base i = true ∧ aboveAt base i = true ∧
        ∃ i0 ∈ (JudgeLineCache.reset base).above_indices,
          i0 ≤ i ∧ i < runEnd base (aboveBlock base i0) i0 ∧
          speedAt base i = speedAt base i0) ∧
      (∀ i ∈ (evolve base flags k).below_indices,
        i < base.length ∧ plainAt base i = true ∧ aboveAt base i = false ∧
        ∃ i0 ∈ (JudgeLineCache.reset base).below_indices,
          i0 ≤ i ∧ i < runEnd base (belowBlock base i0) i0 ∧
          speedAt base i = speedAt base i0) := by
  intro k
  induction k with
  | zero =>
    constructor
    · intro i hi
      obtain ⟨h1, h2, h3⟩ := reset_above_inv base hs i hi
      exact ⟨h1, h2, h3, i, hi, le_refl i,
        lt_of_lt_of_le (by omega) (runEnd_ge base _ i), rfl⟩
    · intro i hi
      obtain ⟨h1, h2, h3⟩ := reset_below_inv base hs i hi
      exact ⟨h1, h2, h3, i, hi, le_refl i,
        lt_of_lt_of_le (by omega) (runEnd_ge base _ i), rfl⟩
  | succ k ih =>
    obtain ⟨iha, ihb⟩ := ih
    have hlen := coreSame_length base (flags k) (hcs k)
    constructor
    · intro j hj
      obtain ⟨i, hi, hadv⟩ := List.mem_filterMap.mp hj
      obtain ⟨hil, hipl, hiab, i0, hi0, hi0le, hi0blk, hisp⟩ := iha i hi
      rcases coreSame_get base (flags k) (hcs k) i with ⟨hnone, -⟩ | ⟨a, b, hga, hgb, heq⟩
      · rw [List.get?_eq_none] at hnone
        omega
      · obtain ⟨hspec, -⟩ :=
          advanceRun_spec (flags k) nextAbove aboveKeep nextAbove_eq_keep aboveKeep_speed
            i b hgb
        obtain ⟨hij, hjE, hjud, -⟩ := hspec j hadv
        have hkcong : ∀ x y, coreEq x y → aboveKeep a.speed x = aboveKeep b.speed y := by
          intro x y hxy
          rw [aboveKeep, aboveKeep, hxy.2.1, hxy.2.2, heq.2.2]
        have hEeq : runEnd base (aboveKeep a.speed) i = runEnd (flags k) (aboveKeep b.speed) i :=
          runEnd_congr base (flags k) (hcs k) _ _ hkcong i
        have hjEb : j < runEnd base (aboveKeep a.speed) i := by rw [hEeq]; exact hjE
        have hspa : speedAt base i = a.speed := speedAt_of_get base i a hga
        have hkeepfn : aboveKeep a.speed = aboveBlock base i0 := by
          rw [aboveBlock, ← hisp, hspa]
        have hstable : runEnd base (aboveBlock base i0) i = runEnd base (aboveBlock base i0) i0 :=
          runEnd_stable base (aboveBlock base i0) (i - i0) i0 i (by omega) hi0le hi0blk
        have hjblk : j < runEnd base (aboveBlock base i0) i0 := by
          rw [← hstable, ← hkeepfn]
          exact hjEb
        have hjl : j < base.length := by
          have h2 := runEnd_le_length (flags k) (aboveKeep b.speed) i (by omega)
          omega
        have hjpl : plainAt base j = true := sorted_plain_mono base hs i j hij hjl hipl
        have hjab : aboveAt base j = true := by
          rcases Nat.eq_or_lt_of_le hij with rfl | hlt
          · exact hiab
          · obtain ⟨m, hgm, hkm⟩ := runEnd_mem (flags k) (aboveKeep b.speed) i j hlt hjE
            rw [aboveKeep, Bool.and_eq_true] at hkm
            rw [aboveAt_congr base (flags k) (hcs k) j, aboveAt_of_get (flags k) j m hgm]
            exact hkm.1
        have hjsp : speedAt base j = speedAt base i0 := by
          rcases Nat.eq_or_lt_of_le hij with rfl | hlt
          · exact hisp
          · obtain ⟨m, hgm, hkm⟩ := runEnd_mem (flags k) (aboveKeep b.speed) i j hlt hjE
            have hms : m.speed = b.speed := aboveKeep_speed _ _ hkm
            rw [speedAt_congr base (flags k) (hcs k) j, speedAt_of_get (flags k) j m hgm,
              hms, ← heq.2.2, ← hspa]
            exact hisp
        exact ⟨hjl, hjpl, hjab, i0, hi0, by omega, hjblk, hjsp⟩
    · intro j hj
      obtain ⟨i, hi, hadv⟩ := List.mem_filterMap.mp hj
      obtain ⟨hil, hipl, hiab, i0, hi0, hi0le, hi0blk, hisp⟩ := ihb i hi
      rcases coreSame_get base (flags k) (hcs k) i with ⟨hnone, -⟩ | ⟨a, b, hga, hgb, heq⟩
      · rw [List.get?_eq_none] at hnone
        omega
      · obtain ⟨hspec, -⟩ :=
          advanceRun_spec (flags k) nextBelow belowKeep nextBelow_eq_keep belowKeep_speed
            i b hgb
        obtain ⟨hij, hjE, hjud, -⟩ := hspec j hadv
        have hkcong : ∀ x y, coreEq x y → belowKeep a.speed x = belowKeep b.speed y := by
          intro x y hxy
          rw [belowKeep, belowKeep, hxy.2.2, heq.2.2]
        have hEeq : runEnd base (belowKeep a.speed) i = runEnd (flags k) (belowKeep b.speed) i :=
          runEnd_congr base (flags k) (hcs k) _ _ hkcong i
        have hjEb : j < runEnd base (belowKeep a.speed) i := by rw [hEeq]; exact hjE
        have hspa : speedAt base i = a.speed := speedAt_of_get base i a hga
        have hkeepfn : belowKeep a.speed = belowBlock base i0 := by
          rw [belowBlock, ← hisp, hspa]
        have hstable : runEnd base (belowBlock base i0) i = runEnd base (belowBlock base i0) i0 :=
          runEnd_stable base (belowBlock base i0) (i - i0) i0 i (by omega) hi0le hi0blk
        have hjblk : j < runEnd base (belowBlock base i0) i0 := by
          rw [← hstable, ← hkeepfn]
          exact hjEb
        have hjl : j < base.length := by
          have h2 := runEnd_le_length (flags k) (belowKeep b.speed) i (by omega)
          omega
        have hjpl : plainAt base j = true := sorted_plain_mono base hs i j hij hjl hipl
        have hjab : aboveAt base j = false := sorted_above_mono base hs i j hij hjl hipl hiab
        have hjsp : speedAt base j = speedAt base i0 := by
          rcases Nat.eq_or_lt_of_le hij with rfl | hlt
          · exact hisp
          · obtain ⟨m, hgm, hkm⟩ := runEnd_mem (flags k) (belowKeep b.speed) i j hlt hjE
            have hms : m.speed = b.speed := belowKeep_speed _ _ hkm
            rw [speedAt_congr base (flags k) (hcs k) j, speedAt_of_get (flags k) j m hgm,
              hms, ← heq.2.2, ← hspa]
            exact hisp
        exact ⟨hjl, hjpl, hjab, i0, hi0, by omega, hjblk, hjsp⟩

/-- Over the sorted sequence, every member of the run block of a plain above
cursor is plain, above, and shares the cursor's speed. -/
theorem run_members_above (notes : List CNote) (hs : SortedNotes notes) (i0 : ℕ)
    (hpl : plainAt notes i0 = true) (hab : aboveAt notes i0 = true) :
    ∀ a, i0 ≤ a → a < runEnd notes (aboveBlock notes i0) i0 →
      plainAt notes a = true ∧ aboveAt notes a = true ∧
        speedAt notes a = speedAt notes i0 := by
  intro a ha1 ha2
  rcases Nat.eq_or_lt_of_le ha1 with rfl | hlt
  · exact ⟨hpl, hab, rfl⟩
  · obtain ⟨m, hgm, hkm⟩ := runEnd_mem notes _ i0 a hlt ha2
    have hal : a < notes.length := (List.get?_eq_some.mp hgm).1
    simp only [aboveBlock, aboveKeep, Bool.and_eq_true, beq_iff_eq] at hkm
    exact ⟨sorted_plain_mono notes hs i0 a ha1 hal hpl,
      by rw [aboveAt_of_get notes a m hgm]; exact hkm.1,
      by rw [speedAt_of_get notes a m hgm]; exact hkm.2⟩

/-- Over the sorted sequence, every member of the run block of a plain below
cursor is plain, not above, and shares the cursor's speed. -/
theorem run_members_below (notes : List CNote) (hs : SortedNotes notes) (i0 : ℕ)
    (hpl : plainAt notes i0 = true) (hab : aboveAt notes i0 = false) :
    ∀ a, i0 ≤ a → a < runEnd notes (belowBlock notes i0) i0 →
      plainAt notes a = true ∧ aboveAt notes a = false ∧
        speedAt notes a = speedAt notes i0 := by
  intro a ha1 ha2
  rcases Nat.eq_or_lt_of_le ha1 with rfl | hlt
  · exact ⟨hpl, hab, rfl⟩
  · obtain ⟨m, hgm, hkm⟩ := runEnd_mem notes _ i0 a hlt ha2
    have hal : a < notes.length := (List.get?_eq_some.mp hgm).1
    simp only [belowBlock, belowKeep, beq_iff_eq] at hkm
    exact ⟨sorted_plain_mono notes hs i0 a ha1 hal hpl,
      sorted_above_mono notes hs i0 a ha1 hal hpl hab,
      by rw [speedAt_of_get notes a m hgm]; exact hkm⟩

/-- Advancing an above cursor that sits in the run block of `i0` (with the
block's speed) keeps it in the block; the landing note is unjudged and every
note strictly passed over is judged. -/
theorem advance_in_block_above (base ys : List CNote) (hcs : CoreSame base ys)
    (i0 i : ℕ) (hil : i < base.length) (hi0le : i0 ≤ i)
    (hblk : i < runEnd base (aboveBlock base i0) i0)
    (hsp : speedAt base i = speedAt base i0) :
    ∀ j, advanceRun ys nextAbove i = some j →
      i ≤ j ∧ j < runEnd base (aboveBlock base i0) i0 ∧
        judgedAt ys j = false ∧ ∀ m, i ≤ m → m < j → judgedAt ys m = true := by
  intro j hadv
  rcases coreSame_get base ys hcs i with ⟨hnone, -⟩ | ⟨a, b, hga, hgb, heq⟩
  · rw [List.get?_eq_none] at hnone
    omega
  · obtain ⟨hspec, -⟩ :=
      advanceRun_spec ys nextAbove aboveKeep nextAbove_eq_keep aboveKeep_speed i b hgb
    obtain ⟨hij, hjE, hjud, hpre⟩ := hspec j hadv
    have hkcong : ∀ x y, coreEq x y → aboveKeep a.speed x = aboveKeep b.speed y := by
      intro x y hxy
      rw [aboveKeep, aboveKeep, hxy.2.1, hxy.2.2, heq.2.2]
    have hEeq : runEnd base (aboveKeep a.speed) i = runEnd ys (aboveKeep b.speed) i :=
      runEnd_congr base ys hcs _ _ hkcong i
    have hspa : speedAt base i = a.speed := speedAt_of_get base i a hga
    have hkeepfn : aboveKeep a.speed = aboveBlock base i0 := by
      rw [aboveBlock, ← hsp, hspa]
    have hstable : runEnd base (aboveBlock base i0) i = runEnd base (aboveBlock base i0) i0 :=
      runEnd_stable base (aboveBlock base i0) (i - i0) i0 i (by omega) hi0le hblk
    refine ⟨hij, ?_, hjud, hpre⟩
    rw [← hstable, ← hkeepfn, hEeq]
    exact hjE

/-- Below-side analogue of `advance_in_block_above`. -/
theorem advance_in_block_below (base ys : List CNote) (hcs : CoreSame base ys)
    (i0 i : ℕ) (hil : i < base.length) (hi0le : i0 ≤ i)
    (hblk : i < runEnd base (belowBlock base i0) i0)
    (hsp : speedAt base i = speedAt base i0) :
    ∀ j, advanceRun ys nextBelow i = some j →
      i ≤ j ∧ j < runEnd base (belowBlock base i0) i0 ∧
        judgedAt ys j = false ∧ ∀ m, i ≤ m → m < j → judgedAt ys m = true := by
  intro j hadv
  rcases coreSame_get base ys hcs i with ⟨hnone, -⟩ | ⟨a, b, hga, hgb, heq⟩
  · rw [List.get?_eq_none] at hnone
    omega
  · obtain ⟨hspec, -⟩ :=
      advanceRun_spec ys nextBelow belowKeep nextBelow_eq_keep belowKeep_speed i b hgb
    obtain ⟨hij, hjE, hjud, hpre⟩ := hspec j hadv
    have hkcong : ∀ x y, coreEq x y → belowKeep a.speed x = belowKeep b.speed y := by
      intro x y hxy
      rw [belowKeep, belowKeep, hxy.2.2, heq.2.2]
    have hEeq : runEnd base (belowKeep a.speed) i = runEnd ys (belowKeep b.speed) i :=
      runEnd_congr base ys hcs _ _ hkcong i
    have hspa : speedAt base i = a.speed := speedAt_of_get base i a hga
    have hkeepfn : belowKeep a.speed = belowBlock base i0 := by
      rw [belowBlock, ← hsp, hspa]
    have hstable : runEnd base (belowBlock base i0) i = runEnd base (belowBlock base i0) i0 :=
      runEnd_stable base (belowBlock base i0) (i - i0) i0 i (by omega) hi0le hblk
    refine ⟨hij, ?_, hjud, hpre⟩
    rw [← hstable, ← hkeepfn, hEeq]
    exact hjE

theorem demoNotes_sorted : SortedNotes demoNotes := by
  rw [SortedNotes, demoNotes]
  norm_num [List.pairwise_cons, noteLE]

theorem demoFlags_coreSame : ∀ k, CoreSame demoNotes (demoFlags k) := by
  intro k
  rw [CoreSame, demoNotes, demoFlags]
  by_cases h : k = 0 <;>
    simp [h, coreEq, List.forall₂_cons]


theorem demo_reset_eval : JudgeLineCache.reset demoNotes =
    ⟨[0, 1, 2], [0], [2]⟩ := by
  simp [JudgeLineCache.reset, demoNotes, buildAbove, buildBelow, runEnd, aboveKeep, belowKeep,
    List.findIdx, List.findIdx.go]
  norm_num [List.takeWhile, List.range, List.range.loop]

theorem demo_evolve_eval : evolve demoNotes demoFlags 1 =
    ⟨[0, 1, 2], [1], [2]⟩ := by
  have h0 : evolve demoNotes demoFlags 0 = JudgeLineCache.reset demoNotes := rfl
  have h1 : evolve demoNotes demoFlags 1 =
      JudgeLine.update (demoFlags 0) (evolve demoNotes demoFlags 0) := rfl
  rw [h1, h0, demo_reset_eval]
  simp [JudgeLine.update, advanceRun, demoFlags, nextAbove, nextBelow]

/-- C1: after `JudgeLineCache::reset` over the sorted note sequence and after
every sequence of `JudgeLine::update` passes (the judgement flags of a pass
may differ, the structural fields are those fixed at construction), each
cursor of `above_indices` (resp. `below_indices`) lies inside the contiguous
run block `[i0, runEnd i0)` of a fresh reset-time cursor `i0`; every pair of
notes of that block agrees on the `above` flag and the `speed`; and advancing
the cursor during the next update pass never moves it outside that block. -/
theorem c1_run_invariant (base : List CNote) (flags : ℕ → List CNote)
    (hs : SortedNotes base) (hcs : ∀ k, CoreSame base (flags k)) (k : ℕ) :
    (∀ i ∈ (evolve base flags k).above_indices,
      ∃ i0 ∈ (JudgeLineCache.reset base).above_indices,
        i0 ≤ i ∧ i < runEnd base (aboveBlock base i0) i0 ∧
        (∀ a b, i0 ≤ a → a < runEnd base (aboveBlock base i0) i0 →
          i0 ≤ b → b < runEnd base (aboveBlock base i0) i0 →
            aboveAt base a = aboveAt base b ∧ speedAt base a = speedAt base b) ∧
        (∀ j, advanceRun (flags k) nextAbove i = some j →
          i0 ≤ j ∧ j < runEnd base (aboveBlock base i0) i0)) ∧
    (∀ i ∈ (evolve base flags k).below_indices,
      ∃ i0 ∈ (JudgeLineCache.reset base).below_indices,
        i0 ≤ i ∧ i < runEnd base (belowBlock base i0) i0 ∧
        (∀ a b, i0 ≤ a → a < runEnd base (belowBlock base i0) i0 →
          i0 ≤ b → b < runEnd base (belowBlock base i0) i0 →
            aboveAt base a = aboveAt base b ∧ speedAt base a = speedAt base b) ∧
        (∀ j, advanceRun (flags k) nextBelow i = some j →
          i0 ≤ j ∧ j < runEnd base (belowBlock base i0) i0)) := by
  obtain ⟨iha, ihb⟩ := evolve_cursor_inv base flags hs hcs k
  constructor
  · intro i hi
    obtain ⟨hil, hipl, hiab, i0, hi0, hle, hblk, hsp⟩ := iha i hi
    obtain ⟨h0l, h0pl, h0ab⟩ := reset_above_inv base hs i0 hi0
    refine ⟨i0, hi0, hle, hblk, ?_, ?_⟩
    · intro a b ha1 ha2 hb1 hb2
      obtain ⟨-, haab, hasp⟩ := run_members_above base hs i0 h0pl h0ab a ha1 ha2
      obtain ⟨-, hbab, hbsp⟩ := run_members_above base hs i0 h0pl h0ab b hb1 hb2
      rw [haab, hbab, hasp, hbsp]
      exact ⟨rfl, rfl⟩
    · intro j hadv
      obtain ⟨hij, hjE, -, -⟩ :=
        advance_in_block_above base (flags k) (hcs k) i0 i hil hle hblk hsp j hadv
      exact ⟨by omega, hjE⟩
  · intro i hi
    obtain ⟨hil, hipl, hiab, i0, hi0, hle, hblk, hsp⟩ := ihb i hi
    obtain ⟨h0l, h0pl, h0ab⟩ := reset_below_inv base hs i0 hi0
    refine ⟨i0, hi0, hle, hblk, ?_, ?_⟩
    · intro a b ha1 ha2 hb1 hb2
      obtain ⟨-, haab, hasp⟩ := run_members_below base hs i0 h0pl h0ab a ha1 ha2
      obtain ⟨-, hbab, hbsp⟩ := run_members_below base hs i0 h0pl h0ab b hb1 hb2
      rw [haab, hbab, hasp, hbsp]
      exact ⟨rfl, rfl⟩
    · intro j hadv
      obtain ⟨hij, hjE, -, -⟩ :=
        advance_in_block_below base (flags k) (hcs k) i0 i hil hle hblk hsp j hadv
      exact ⟨by omega, hjE⟩

theorem c1_run_invariant_witness :
    SortedNotes demoNotes ∧
      1 ∈ (evolve demoNotes demoFlags 1).above_indices ∧
      ∃ i0 ∈ (JudgeLineCache.reset demoNotes).above_indices,
        i0 ≤ 1 ∧ 1 < runEnd demoNotes (aboveBlock demoNotes i0) i0 := by
  refine ⟨demoNotes_sorted, by rw [demo_evolve_eval]; simp, ?_⟩
  obtain ⟨i0, hmem, hle, hlt, -, -⟩ :=
    (c1_run_invariant demoNotes demoFlags demoNotes_sorted demoFlags_coreSame 1).1 1
      (by rw [demo_evolve_eval]; simp)
  exact ⟨i0, hmem, hle, hlt⟩


/-- A cursor that survives `advanceRun` lands on an unjudged note. -/
theorem advanceRun_some_unjudged (notes : List CNote) (next : CNote → CNote → Bool) :
    ∀ i j, advanceRun notes next i = some j → judgedAt notes j = false := by
  intro i
  induction i using advanceRun.induct notes next with
  | case1 i hget =>
    intro j hadv
    rw [advanceRun, hget] at hadv
    cases hadv
  | case2 i n0 hget hj m hm hnext ih =>
    intro j hadv
    rw [advanceRun, hget] at hadv
    dsimp only at hadv
    rw [if_pos hj, hm] at hadv
    dsimp only at hadv
    rw [if_pos hnext] at hadv
    exact ih j hadv
  | case3 i n0 hget hj m hm hnext =>
    intro j hadv
    rw [advanceRun, hget] at hadv
    dsimp only at hadv
    rw [if_pos hj, hm] at hadv
    dsimp only at hadv
    rw [if_neg hnext] at hadv
    cases hadv
  | case4 i n0 hget hj hm =>
    intro j hadv
    rw [advanceRun, hget] at hadv
    dsimp only at hadv
    rw [if_pos hj, hm] at hadv
    cases hadv
  | case5 i n0 hget hj =>
    intro j hadv
    rw [advanceRun, hget] at hadv
    dsimp only at hadv
    rw [if_neg hj, Option.some.injEq] at hadv
    subst hadv
    rw [judgedAt, hget]
    simp only [Option.map_some', Option.getD_some]
    rw [← Bool.not_eq_true]
    exact hj

/-- Judged-prefix invariant: each surviving cursor has, inside its ancestor
run, a fully judged prefix — judged from the pass that produced the current
state on (provided judgements are monotone across passes). -/
theorem evolve_prefix_inv (base : List CNote) (flags : ℕ → List CNote)
    (hs : SortedNotes base) (hcs : ∀ k, CoreSame base (flags k))
    (hmono : ∀ k k2 j, k ≤ k2 → judgedAt (flags k) j = true →
      judgedAt (flags k2) j = true) :
    ∀ k,
      (∀ i ∈ (evolve base flags k).above_indices,
        ∃ i0 ∈ (JudgeLineCache.reset base).above_indices,
          i0 ≤ i ∧ i < runEnd base (aboveBlock base i0) i0 ∧
          speedAt base i = speedAt base i0 ∧ i < base.length ∧
          ∀ m k2, i0 ≤ m → m < i → k - 1 ≤ k2 → judgedAt (flags k2) m = true) ∧
      (∀ i ∈ (evolve base flags k).below_indices,
        ∃ i0 ∈ (JudgeLineCache.reset base).below_indices,
          i0 ≤ i ∧ i < runEnd base (belowBlock base i0) i0 ∧
          speedAt base i = speedAt base i0 ∧ i < base.length ∧
          ∀ m k2, i0 ≤ m → m < i → k - 1 ≤ k2 → judgedAt (flags k2) m = true) := by
  intro k
  induction k with
  | zero =>
    constructor
    · intro i hi
      obtain ⟨h1, -, -⟩ := reset_above_inv base hs i hi
      exact ⟨i, hi, le_refl i,
        lt_of_lt_of_le (by omega) (runEnd_ge base _ i), rfl, h1,
        fun m k2 hm1 hm2 _ => absurd (lt_of_le_of_lt hm1 hm2) (lt_irrefl i)⟩
    · intro i hi
      obtain ⟨h1, -, -⟩ := reset_below_inv base hs i hi
      exact ⟨i, hi, le_refl i,
        lt_of_lt_of_le (by omega) (runEnd_ge base _ i), rfl, h1,
        fun m k2 hm1 hm2 _ => absurd (lt_of_le_of_lt hm1 hm2) (lt_irrefl i)⟩
  | succ k ih =>
    obtain ⟨iha, ihb⟩ := ih
    constructor
    · intro i hi
      obtain ⟨c, hc, hadv⟩ := List.mem_filterMap.mp hi
      obtain ⟨i0, hi0, hle, hblk, hsp, hcl, hpre⟩ := iha c hc
      obtain ⟨h0l, h0pl, h0ab⟩ := reset_above_inv base hs i0 hi0
      obtain ⟨hci, hiE, hju, hnew⟩ :=
        advance_in_block_above base (flags k) (hcs k) i0 c hcl hle hblk hsp i hadv
      obtain ⟨-, -, hspi⟩ :=
        run_members_above base hs i0 h0pl h0ab i (by omega) hiE
      refine ⟨i0, hi0, by omega, hiE, hspi, ?_, ?_⟩
      · have := runEnd_le_length base (aboveBlock base i0) i0 h0l
        omega
      · intro m k2 hm1 hm2 hk2
        rcases Nat.lt_or_ge m c with hmc | hmc
        · exact hpre m k2 hm1 hmc (by omega)
        · exact hmono k k2 m (by omega) (hnew m hmc hm2)
    · intro i hi
      obtain ⟨c, hc, hadv⟩ := List.mem_filterMap.mp hi
      obtain ⟨i0, hi0, hle, hblk, hsp, hcl, hpre⟩ := ihb c hc
      obtain ⟨h0l, h0pl, h0ab⟩ := reset_below_inv base hs i0 hi0
      obtain ⟨hci, hiE, hju, hnew⟩ :=
        advance_in_block_below base (flags k) (hcs k) i0 c hcl hle hblk hsp i hadv
      obtain ⟨-, -, hspi⟩ :=
        run_members_below base hs i0 h0pl h0ab i (by omega) hiE
      refine ⟨i0, hi0, by omega, hiE, hspi, ?_, ?_⟩
      · have := runEnd_le_length base (belowBlock base i0) i0 h0l
        omega
      · intro m k2 hm1 hm2 hk2
        rcases Nat.lt_or_ge m c with hmc | hmc
        · exact hpre m k2 hm1 hmc (by omega)
        · exact hmono k k2 m (by omega) (hnew m hmc hm2)

theorem findIdx_plain_congr (xs ys : List CNote) (h : CoreSame xs ys) :
    xs.findIdx (·.plain) = ys.findIdx (·.plain) := by
  induction h with
  | nil => rfl
  | @cons a b l1 l2 hab htail ih =>
    simp only [List.findIdx_cons, hab.1, ih]

theorem findIdx_le_of_plainAt (notes : List CNote) (i : ℕ) (h : plainAt notes i = true) :
    notes.findIdx (·.plain) ≤ i := by
  by_contra hc
  push_neg at hc
  have hil : i < notes.length := lt_of_lt_of_le hc (List.findIdx_le_length _)
  have h2 := List.not_of_lt_findIdx hc
  rw [plainAt, List.get?_eq_getElem?, List.getElem?_eq_getElem hil] at h
  simp only [Option.map_some', Option.getD_some] at h
  simp only [h] at h2
  exact absurd h2 (by decide)

theorem plainScan_lt (ys : List CNote) (side : Bool) :
    ∀ j ∈ plainScan ys side, j < ys.findIdx (·.plain) := by
  intro j hj
  rw [plainScan] at hj
  exact List.mem_range.mp (List.mem_filter.mp hj).1

/-- Every index the above render scan from `i` visits is reached through a
contiguous chain of notes that continue the run (`above` and speed `sp`). -/
theorem scanAbove_chain (notes : List CNote) (agg : Bool) (lh ext sp : ℚ) :
    ∀ i, ∀ j ∈ scanAbove notes agg lh ext sp i,
      i ≤ j ∧ ∀ m, i ≤ m → m ≤ j →
        ∃ nm, notes.get? m = some nm ∧ aboveKeep sp nm = true := by
  intro i
  induction i using scanAbove.induct notes agg lh ext sp with
  | case1 i note hget hcond =>
    rw [scanAbove, hget]
    dsimp only
    rw [if_pos hcond]
    intro j hj
    simp at hj
  | case2 i note hget hcond hagg =>
    rw [scanAbove, hget]
    dsimp only
    rw [if_neg hcond, if_pos hagg]
    intro j hj
    simp at hj
  | case3 i note hget hcond hagg ih =>
    rw [scanAbove, hget]
    dsimp only
    rw [if_neg hcond, if_neg hagg]
    have hkeep : aboveKeep sp note = true := by
      simp only [Bool.or_eq_true, Bool.not_eq_true, bne_iff_ne, ne_eq, not_or] at hcond
      push_neg at hcond
      have hab : note.above = true := by simpa using hcond.1
      rw [aboveKeep, hab, Bool.true_and, beq_iff_eq, hcond.2]
    intro j hj
    rcases List.mem_cons.mp hj with rfl | hj2
    · refine ⟨le_refl j, ?_⟩
      intro m hm1 hm2
      have : m = j := by omega
      subst this
      exact ⟨note, hget, hkeep⟩
    · obtain ⟨h1, h2⟩ := ih j hj2
      refine ⟨by omega, ?_⟩
      intro m hm1 hm2
      rcases Nat.eq_or_lt_of_le hm1 with rfl | hlt
      · exact ⟨note, hget, hkeep⟩
      · exact h2 m (by omega) hm2
  | case4 i hget =>
    rw [scanAbove, hget]
    intro j hj
    simp at hj

/-- Below-side analogue of `scanAbove_chain`. -/
theorem scanBelow_chain (notes : List CNote) (agg : Bool) (lh ext sp : ℚ) :
    ∀ i, ∀ j ∈ scanBelow notes agg lh ext sp i,
      i ≤ j ∧ ∀ m, i ≤ m → m ≤ j →
        ∃ nm, notes.get? m = some nm ∧ belowKeep sp nm = true := by
  intro i
  induction i using scanBelow.induct notes agg lh ext sp with
  | case1 i note hget hcond =>
    rw [scanBelow, hget]
    dsimp only
    rw [if_pos hcond]
    intro j hj
    simp at hj
  | case2 i note hget hcond hagg =>
    rw [scanBelow, hget]
    dsimp only
    rw [if_neg hcond, if_pos hagg]
    intro j hj
    simp at hj
  | case3 i note hget hcond hagg ih =>
    rw [scanBelow, hget]
    dsimp only
    rw [if_neg hcond, if_neg hagg]
    have hkeep : belowKeep sp note = true := by
      simp only [bne_iff_ne, ne_eq, not_not] at hcond
      rw [belowKeep, beq_iff_eq, hcond]
    intro j hj
    rcases List.mem_cons.mp hj with rfl | hj2
    · refine ⟨le_refl j, ?_⟩
      intro m hm1 hm2
      have : m = j := by omega
      subst this
      exact ⟨note, hget, hkeep⟩
    · obtain ⟨h1, h2⟩ := ih j hj2
      refine ⟨by omega, ?_⟩
      intro m hm1 hm2
      rcases Nat.eq_or_lt_of_le hm1 with rfl | hlt
      · exact ⟨note, hget, hkeep⟩
      · exact h2 m (by omega) hm2
  | case4 i hget =>
    rw [scanBelow, hget]
    intro j hj
    simp at hj

/-- A contiguous keep-satisfying chain from `i0` to `j` keeps `j` inside the
run block of `i0`. -/
theorem runEnd_of_chain (notes : List CNote) (keep : CNote → Bool) (i0 j : ℕ)
    (hij : i0 ≤ j)
    (hchain : ∀ m, i0 < m → m ≤ j → ∃ nm, notes.get? m = some nm ∧ keep nm = true) :
    j < runEnd notes keep i0 := by
  by_contra hc
  push_neg at hc
  have hge := runEnd_ge notes keep i0
  obtain ⟨nm, hget, hkeep⟩ := hchain (runEnd notes keep i0) (by omega) hc
  rcases runEnd_stop notes keep i0 with hnone | ⟨m2, hget2, hkeep2⟩
  · rw [hget] at hnone
    cases hnone
  · rw [hget, Option.some.injEq] at hget2
    rw [← hget2] at hkeep2
    rw [hkeep] at hkeep2
    cases hkeep2

/-- The above render scan from a cursor never leaves the cursor's own run
block of the constructed sequence. -/
theorem scanAbove_in_block (base ys : List CNote) (hcs : CoreSame base ys)
    (agg : Bool) (lh ext : ℚ) (c : ℕ) :
    ∀ j ∈ scanAbove ys agg lh ext (speedAt ys c) c,
      c ≤ j ∧ j < runEnd base (aboveBlock base c) c := by
  intro j hj
  obtain ⟨hcj, hchain⟩ := scanAbove_chain ys agg lh ext (speedAt ys c) c j hj
  refine ⟨hcj, ?_⟩
  apply runEnd_of_chain base (aboveBlock base c) c j hcj
  intro m hm1 hm2
  obtain ⟨nm, hget, hkeep⟩ := hchain m (by omega) hm2
  rcases coreSame_get base ys hcs m with ⟨h1, h2⟩ | ⟨a, b, h1, h2, heq⟩
  · rw [hget] at h2
    cases h2
  · rw [hget, Option.some.injEq] at h2
    subst h2
    refine ⟨a, h1, ?_⟩
    simp only [aboveKeep, Bool.and_eq_true, beq_iff_eq] at hkeep
    simp only [aboveBlock, aboveKeep, Bool.and_eq_true, beq_iff_eq]
    refine ⟨by rw [heq.2.1]; exact hkeep.1, ?_⟩
    rw [heq.2.2, speedAt_congr base ys hcs c]
    exact hkeep.2

/-- Below-side analogue of `scanAbove_in_block`. -/
theorem scanBelow_in_block (base ys : List CNote) (hcs : CoreSame base ys)
    (agg : Bool) (lh ext : ℚ) (c : ℕ) :
    ∀ j ∈ scanBelow ys agg lh ext (speedAt ys c) c,
      c ≤ j ∧ j < runEnd base (belowBlock base c) c := by
  intro j hj
  obtain ⟨hcj, hchain⟩ := scanBelow_chain ys agg lh ext (speedAt ys c) c j hj
  refine ⟨hcj, ?_⟩
  apply runEnd_of_chain base (belowBlock base c) c j hcj
  intro m hm1 hm2
  obtain ⟨nm, hget, hkeep⟩ := hchain m (by omega) hm2
  rcases coreSame_get base ys hcs m with ⟨h1, h2⟩ | ⟨a, b, h1, h2, heq⟩
  · rw [hget] at h2
    cases h2
  · rw [hget, Option.some.injEq] at h2
    subst h2
    refine ⟨a, h1, ?_⟩
    simp only [belowKeep, beq_iff_eq] at hkeep
    simp only [belowBlock, belowKeep, beq_iff_eq]
    rw [heq.2.2, speedAt_congr base ys hcs c]
    exact hkeep

theorem reset_above_sep (notes : List CNote) :
    ∀ c ∈ (JudgeLineCache.reset notes).above_indices,
      ∀ c2 ∈ (JudgeLineCache.reset notes).above_indices,
        c2 = c ∨ c2 < c ∨ runEnd notes (aboveBlock notes c) c ≤ c2 := by
  intro c hc c2 hc2
  simp only [JudgeLineCache.reset] at hc hc2
  have h := (buildAbove_sep notes (notes.findIdx (·.plain)) c hc).2 c2 hc2
  simpa only [aboveBlock] using h

theorem reset_below_sep (notes : List CNote) :
    ∀ c ∈ (JudgeLineCache.reset notes).below_indices,
      ∀ c2 ∈ (JudgeLineCache.reset notes).below_indices,
        c2 = c ∨ c2 < c ∨ runEnd notes (belowBlock notes c) c ≤ c2 := by
  intro c hc c2 hc2
  simp only [JudgeLineCache.reset] at hc hc2
  have h := buildBelow_sep notes (buildAbove notes (notes.findIdx (·.plain))).2 c hc c2 hc2
  simpa only [belowBlock] using h


theorem demoFlags_mono : ∀ k k2 j, k ≤ k2 →
    judgedAt (demoFlags k) j = true → judgedAt (demoFlags k2) j = true := by
  intro k k2 j hk hj
  by_cases h : k = 0
  · subst h
    by_cases h2 : k2 = 0
    · subst h2
      exact hj
    · rcases j with _ | _ | _ | j4 <;>
        simp_all [demoFlags, judgedAt]
  · have h2 : k2 ≠ 0 := by omega
    have heq : demoFlags k = demoFlags k2 := by
      simp [demoFlags, h, h2]
    rw [← heq]
    exact hj

/-- C2: after every update pass each surviving cursor points at the first
unjudged note of its run — the note under the cursor is unjudged at that pass
and every earlier note of the run block is judged; and once a run block is
entirely judged at some pass, every later cache state holds no cursor inside
the block, and no later render pass (over any note state sharing the
structural fields) hands any index of the block to `Note::render`. -/
theorem c2_judged_runs (base : List CNote) (flags : ℕ → List CNote)
    (hs : SortedNotes base) (hcs : ∀ k, CoreSame base (flags k))
    (hmono : ∀ k k2 j, k ≤ k2 → judgedAt (flags k) j = true →
      judgedAt (flags k2) j = true) :
    (∀ k, ∀ i ∈ (evolve base flags (k + 1)).above_indices,
      ∃ i0 ∈ (JudgeLineCache.reset base).above_indices,
        i0 ≤ i ∧ i < runEnd base (aboveBlock base i0) i0 ∧
        judgedAt (flags k) i = false ∧
        ∀ m, i0 ≤ m → m < i → judgedAt (flags k) m = true) ∧
    (∀ k, ∀ i ∈ (evolve base flags (k + 1)).below_indices,
      ∃ i0 ∈ (JudgeLineCache.reset base).below_indices,
        i0 ≤ i ∧ i < runEnd base (belowBlock base i0) i0 ∧
        judgedAt (flags k) i = false ∧
        ∀ m, i0 ≤ m → m < i → judgedAt (flags k) m = true) ∧
    (∀ i0 ∈ (JudgeLineCache.reset base).above_indices, ∀ k,
      (∀ m, i0 ≤ m → m < runEnd base (aboveBlock base i0) i0 →
        judgedAt (flags k) m = true) →
      ∀ k2, k < k2 →
        (∀ i ∈ (evolve base flags k2).above_indices,
          ¬(i0 ≤ i ∧ i < runEnd base (aboveBlock base i0) i0)) ∧
        (∀ ys, CoreSame base ys → ∀ agg lh ext,
          ∀ j ∈ renderAboveIdxs ys (evolve base flags k2) agg lh ext,
            ¬(i0 ≤ j ∧ j < runEnd base (aboveBlock base i0) i0))) ∧
    (∀ i0 ∈ (JudgeLineCache.reset base).below_indices, ∀ k,
      (∀ m, i0 ≤ m → m < runEnd base (belowBlock base i0) i0 →
        judgedAt (flags k) m = true) →
      ∀ k2, k < k2 →
        (∀ i ∈ (evolve base flags k2).below_indices,
          ¬(i0 ≤ i ∧ i < runEnd base (belowBlock base i0) i0)) ∧
        (∀ ys, CoreSame base ys → ∀ agg lh ext,
          ∀ j ∈ renderBelowIdxs ys (evolve base flags k2) agg lh ext,
            ¬(i0 ≤ j ∧ j < runEnd base (belowBlock base i0) i0))) := by
  refine ⟨?_, ?_, ?_, ?_⟩
  · intro k i hi
    obtain ⟨i0, hi0, hle, hblk, -, -, hpre⟩ :=
      ((evolve_prefix_inv base flags hs hcs hmono (k + 1)).1) i hi
    have hi2 : i ∈ (evolve base flags k).above_indices.filterMap
        (advanceRun (flags k) nextAbove) := hi
    obtain ⟨c, hc, hadv⟩ := List.mem_filterMap.mp hi2
    refine ⟨i0, hi0, hle, hblk,
      advanceRun_some_unjudged (flags k) nextAbove c i hadv, ?_⟩
    intro m hm1 hm2
    exact hpre m k hm1 hm2 (by omega)
  · intro k i hi
    obtain ⟨i0, hi0, hle, hblk, -, -, hpre⟩ :=
      ((evolve_prefix_inv base flags hs hcs hmono (k + 1)).2) i hi
    have hi2 : i ∈ (evolve base flags k).below_indices.filterMap
        (advanceRun (flags k) nextBelow) := hi
    obtain ⟨c, hc, hadv⟩ := List.mem_filterMap.mp hi2
    refine ⟨i0, hi0, hle, hblk,
      advanceRun_some_unjudged (flags k) nextBelow c i hadv, ?_⟩
    intro m hm1 hm2
    exact hpre m k hm1 hm2 (by omega)
  · intro i0 hi0 k hall k2 hk2
    obtain ⟨m0, rfl⟩ : ∃ m0, k2 = m0 + 1 := ⟨k2 - 1, by omega⟩
    have hcur : ∀ i ∈ (evolve base flags (m0 + 1)).above_indices,
        ¬(i0 ≤ i ∧ i < runEnd base (aboveBlock base i0) i0) := by
      intro i hi hin
      have hi2 : i ∈ (evolve base flags m0).above_indices.filterMap
          (advanceRun (flags m0) nextAbove) := hi
      obtain ⟨c, hc, hadv⟩ := List.mem_filterMap.mp hi2
      have hju := advanceRun_some_unjudged (flags m0) nextAbove c i hadv
      have := hmono k m0 i (by omega) (hall i hin.1 hin.2)
      rw [this] at hju
      cases hju
    refine ⟨hcur, ?_⟩
    intro ys hys agg lh ext j hj hin
    obtain ⟨-, h0pl, -⟩ := reset_above_inv base hs i0 hi0
    rcases List.mem_append.mp hj with hpj | hfj
    · have h1 := plainScan_lt ys true j hpj
      rw [← findIdx_plain_congr base ys hys] at h1
      have h2 := findIdx_le_of_plainAt base i0 h0pl
      omega
    · obtain ⟨c, hc, hsc⟩ := List.mem_flatMap.mp hfj
      obtain ⟨-, -, -, c0, hc0, hc0le, hc0blk, hspc⟩ :=
        (evolve_cursor_inv base flags hs hcs (m0 + 1)).1 c hc
      obtain ⟨hcj, hjB⟩ := scanAbove_in_block base ys hys agg lh ext c j hsc
      have hfn : aboveBlock base c = aboveBlock base c0 := by
        rw [aboveBlock, aboveBlock, hspc]
      rw [hfn] at hjB
      have hstable : runEnd base (aboveBlock base c0) c =
          runEnd base (aboveBlock base c0) c0 :=
        runEnd_stable base (aboveBlock base c0) (c - c0) c0 c (by omega) hc0le hc0blk
      rw [hstable] at hjB
      rcases reset_above_sep base c0 hc0 i0 hi0 with heq | hlt | hge
      · subst heq
        exact hcur c hc ⟨by omega, hc0blk⟩
      · rcases reset_above_sep base i0 hi0 c0 hc0 with heq2 | hlt2 | hge2
        · omega
        · omega
        · omega
      · omega
  · intro i0 hi0 k hall k2 hk2
    obtain ⟨m0, rfl⟩ : ∃ m0, k2 = m0 + 1 := ⟨k2 - 1, by omega⟩
    have hcur : ∀ i ∈ (evolve base flags (m0 + 1)).below_indices,
        ¬(i0 ≤ i ∧ i < runEnd base (belowBlock base i0) i0) := by
      intro i hi hin
      have hi2 : i ∈ (evolve base flags m0).below_indices.filterMap
          (advanceRun (flags m0) nextBelow) := hi
      obtain ⟨c, hc, hadv⟩ := List.mem_filterMap.mp hi2
      have hju := advanceRun_some_unjudged (flags m0) nextBelow c i hadv
      have := hmono k m0 i (by omega) (hall i hin.1 hin.2)
      rw [this] at hju
      cases hju
    refine ⟨hcur, ?_⟩
    intro ys hys agg lh ext j hj hin
    obtain ⟨-, h0pl, -⟩ := reset_below_inv base hs i0 hi0
    rcases List.mem_append.mp hj with hpj | hfj
    · have h1 := plainScan_lt ys false j hpj
      rw [← findIdx_plain_congr base ys hys] at h1
      have h2 := findIdx_le_of_plainAt base i0 h0pl
      omega
    · obtain ⟨c, hc, hsc⟩ := List.mem_flatMap.mp hfj
      obtain ⟨-, -, -, c0, hc0, hc0le, hc0blk, hspc⟩ :=
        (evolve_cursor_inv base flags hs hcs (m0 + 1)).2 c hc
      obtain ⟨hcj, hjB⟩ := scanBelow_in_block base ys hys agg lh ext c j hsc
      have hfn : belowBlock base c = belowBlock base c0 := by
        rw [belowBlock, belowBlock, hspc]
      rw [hfn] at hjB
      have hstable : runEnd base (belowBlock base c0) c =
          runEnd base (belowBlock base c0) c0 :=
        runEnd_stable base (belowBlock base c0) (c - c0) c0 c (by omega) hc0le hc0blk
      rw [hstable] at hjB
      rcases reset_below_sep base c0 hc0 i0 hi0 with heq | hlt | hge
      · subst heq
        exact hcur c hc ⟨by omega, hc0blk⟩
      · rcases reset_below_sep base i0 hi0 c0 hc0 with heq2 | hlt2 | hge2
        · omega
        · omega
        · omega
      · omega

theorem c2_judged_runs_witness :
    (∀ k k2 j, k ≤ k2 → judgedAt (demoFlags k) j = true →
      judgedAt (demoFlags k2) j = true) ∧
    ∃ i0 ∈ (JudgeLineCache.reset demoNotes).above_indices,
      i0 ≤ 1 ∧ 1 < runEnd demoNotes (aboveBlock demoNotes i0) i0 ∧
      judgedAt (demoFlags 0) 1 = false ∧
      ∀ m, i0 ≤ m → m < 1 → judgedAt (demoFlags 0) m = true := by
  refine ⟨demoFlags_mono, ?_⟩
  exact (c2_judged_runs demoNotes demoFlags demoNotes_sorted demoFlags_coreSame
    demoFlags_mono).1 0 1 (by norm_num [demo_evolve_eval])


theorem offsetAt_of_get (notes : List CNote) (lh : ℚ) (i : ℕ) (n : CNote)
    (h : notes.get? i = some n) : offsetAt notes lh i = n.height - lh + n.ytr := by
  rw [offsetAt, h]
  rfl

/-- The aggressive above scan is the maximal prefix of the full scan whose
notes project inside the visible extent. -/
theorem scanAbove_agg_takeWhile (ys : List CNote) (lh ext sp : ℚ) :
    ∀ i, scanAbove ys true lh ext sp i =
      (scanAbove ys false lh ext sp i).takeWhile
        (fun j => decide (offsetAt ys lh j ≤ ext)) := by
  intro i
  induction i using scanAbove.induct ys true lh ext sp with
  | case1 i note hget hcond =>
    have h1 : scanAbove ys true lh ext sp i = [] := by
      rw [scanAbove, hget]
      dsimp only
      rw [if_pos hcond]
    have h2 : scanAbove ys false lh ext sp i = [] := by
      rw [scanAbove, hget]
      dsimp only
      rw [if_pos hcond]
    rw [h1, h2]
    rfl
  | case2 i note hget hcond hagg =>
    have h1 : scanAbove ys true lh ext sp i = [] := by
      rw [scanAbove, hget]
      dsimp only
      rw [if_neg hcond, if_pos hagg]
    have h2 : scanAbove ys false lh ext sp i =
        i :: scanAbove ys false lh ext sp (i + 1) := by
      rw [scanAbove, hget]
      dsimp only
      rw [if_neg hcond, if_neg (by simp)]
    simp only [Bool.true_and, decide_eq_true_eq] at hagg
    have hoff : ¬(offsetAt ys lh i ≤ ext) := by
      rw [offsetAt_of_get ys lh i note hget]
      linarith
    rw [h1, h2, List.takeWhile_cons_of_neg (by simpa using hoff)]
  | case3 i note hget hcond hagg ih =>
    have h1 : scanAbove ys true lh ext sp i =
        i :: scanAbove ys true lh ext sp (i + 1) := by
      rw [scanAbove, hget]
      dsimp only
      rw [if_neg hcond, if_neg hagg]
    have h2 : scanAbove ys false lh ext sp i =
        i :: scanAbove ys false lh ext sp (i + 1) := by
      rw [scanAbove, hget]
      dsimp only
      rw [if_neg hcond, if_neg (by simp)]
    simp only [Bool.true_and, decide_eq_true_eq, not_lt] at hagg
    have hoff : offsetAt ys lh i ≤ ext := by
      rw [offsetAt_of_get ys lh i note hget]
      linarith
    rw [h1, h2, List.takeWhile_cons_of_pos (by simpa using hoff), ih]
  | case4 i hget =>
    have h1 : scanAbove ys true lh ext sp i = [] := by
      rw [scanAbove, hget]
    have h2 : scanAbove ys false lh ext sp i = [] := by
      rw [scanAbove, hget]
    rw [h1, h2]
    rfl

/-- Below-side analogue of `scanAbove_agg_takeWhile`. -/
theorem scanBelow_agg_takeWhile (ys : List CNote) (lh ext sp : ℚ) :
    ∀ i, scanBelow ys true lh ext sp i =
      (scanBelow ys false lh ext sp i).takeWhile
        (fun j => decide (offsetAt ys lh j ≤ ext)) := by
  intro i
  induction i using scanBelow.induct ys true lh ext sp with
  | case1 i note hget hcond =>
    have h1 : scanBelow ys true lh ext sp i = [] := by
      rw [scanBelow, hget]
      dsimp only
      rw [if_pos hcond]
    have h2 : scanBelow ys false lh ext sp i = [] := by
      rw [scanBelow, hget]
      dsimp only
      rw [if_pos hcond]
    rw [h1, h2]
    rfl
  | case2 i note hget hcond hagg =>
    have h1 : scanBelow ys true lh ext sp i = [] := by
      rw [scanBelow, hget]
      dsimp only
      rw [if_neg hcond, if_pos hagg]
    have h2 : scanBelow ys false lh ext sp i =
        i :: scanBelow ys false lh ext sp (i + 1) := by
      rw [scanBelow, hget]
      dsimp only
      rw [if_neg hcond, if_neg (by simp)]
    simp only [Bool.true_and, decide_eq_true_eq] at hagg
    have hoff : ¬(offsetAt ys lh i ≤ ext) := by
      rw [offsetAt_of_get ys lh i note hget]
      linarith
    rw [h1, h2, List.takeWhile_cons_of_neg (by simpa using hoff)]
  | case3 i note hget hcond hagg ih =>
    have h1 : scanBelow ys true lh ext sp i =
        i :: scanBelow ys true lh ext sp (i + 1) := by
      rw [scanBelow, hget]
      dsimp only
      rw [if_neg hcond, if_neg hagg]
    have h2 : scanBelow ys false lh ext sp i =
        i :: scanBelow ys false lh ext sp (i + 1) := by
      rw [scanBelow, hget]
      dsimp only
      rw [if_neg hcond, if_neg (by simp)]
    simp only [Bool.true_and, decide_eq_true_eq, not_lt] at hagg
    have hoff : offsetAt ys lh i ≤ ext := by
      rw [offsetAt_of_get ys lh i note hget]
      linarith
    rw [h1, h2, List.takeWhile_cons_of_pos (by simpa using hoff), ih]
  | case4 i hget =>
    have h1 : scanBelow ys true lh ext sp i = [] := by
      rw [scanBelow, hget]
    have h2 : scanBelow ys false lh ext sp i = [] := by
      rw [scanBelow, hget]
    rw [h1, h2]
    rfl

/-- Filtering commutes with cutting at a prefix when the cut predicate is
antitone along the list and every cut element fails the filter. -/
theorem takeWhile_filter_eq (p q : ℕ → Bool) :
    ∀ l : List ℕ, (∀ j ∈ l, p j = false → q j = false) →
      l.Pairwise (fun a b => p a = false → p b = false) →
      (l.takeWhile p).filter q = l.filter q := by
  intro l
  induction l with
  | nil =>
    intro h1 h2
    rfl
  | cons a t ih =>
    intro h1 h2
    rw [List.pairwise_cons] at h2
    by_cases hp : p a = true
    · rw [List.takeWhile_cons_of_pos hp, List.filter_cons, List.filter_cons,
        ih (fun j hj hpj => h1 j (List.mem_cons_of_mem a hj) hpj) h2.2]
    · have hpa : p a = false := by
        rw [← Bool.not_eq_true]
        exact hp
      rw [List.takeWhile_cons_of_neg hp]
      have hnil : (a :: t).filter q = [] := by
        rw [List.filter_eq_nil_iff]
        intro j hj
        have hpj : p j = false := by
          rcases List.mem_cons.mp hj with h3 | hj2
          · rw [h3]
            exact hpa
          · exact h2.1 j hj2 hpa
        simp [h1 j hj hpj]
      rw [hnil]
      rfl

theorem flatMap_filter_congr (cull : ℕ → Bool) (f1 f2 : ℕ → List ℕ) :
    ∀ l : List ℕ, (∀ i ∈ l, (f1 i).filter cull = (f2 i).filter cull) →
      (l.flatMap f1).filter cull = (l.flatMap f2).filter cull := by
  intro l
  induction l with
  | nil =>
    intro h
    rfl
  | cons a t ih =>
    intro h
    rw [List.flatMap_cons, List.flatMap_cons, List.filter_append, List.filter_append,
      h a (List.mem_cons_self a t), ih (fun i hi => h i (List.mem_cons_of_mem a hi))]

theorem scanAbove_lt (ys : List CNote) (agg : Bool) (lh ext sp : ℚ) :
    ∀ i, (scanAbove ys agg lh ext sp i).Pairwise (· < ·) := by
  intro i
  induction i using scanAbove.induct ys agg lh ext sp with
  | case1 i note hget hcond =>
    rw [scanAbove, hget]
    dsimp only
    rw [if_pos hcond]
    exact List.Pairwise.nil
  | case2 i note hget hcond hagg =>
    rw [scanAbove, hget]
    dsimp only
    rw [if_neg hcond, if_pos hagg]
    exact List.Pairwise.nil
  | case3 i note hget hcond hagg ih =>
    rw [scanAbove, hget]
    dsimp only
    rw [if_neg hcond, if_neg hagg]
    refine List.Pairwise.cons ?_ ih
    intro b hb
    have := (scanAbove_chain ys agg lh ext sp (i + 1) b hb).1
    omega
  | case4 i hget =>
    rw [scanAbove, hget]
    exact List.Pairwise.nil

theorem scanBelow_lt (ys : List CNote) (agg : Bool) (lh ext sp : ℚ) :
    ∀ i, (scanBelow ys agg lh ext sp i).Pairwise (· < ·) := by
  intro i
  induction i using scanBelow.induct ys agg lh ext sp with
  | case1 i note hget hcond =>
    rw [scanBelow, hget]
    dsimp only
    rw [if_pos hcond]
    exact List.Pairwise.nil
  | case2 i note hget hcond hagg =>
    rw [scanBelow, hget]
    dsimp only
    rw [if_neg hcond, if_pos hagg]
    exact List.Pairwise.nil
  | case3 i note hget hcond hagg ih =>
    rw [scanBelow, hget]
    dsimp only
    rw [if_neg hcond, if_neg hagg]
    refine List.Pairwise.cons ?_ ih
    intro b hb
    have := (scanBelow_chain ys agg lh ext sp (i + 1) b hb).1
    omega
  | case4 i hget =>
    rw [scanBelow, hget]
    exact List.Pairwise.nil

/-- Along an above run scan from a plain cursor, projected offsets are
monotone (this is the sort key). -/
theorem scanAbove_offsets_mono (ys : List CNote) (hs : SortedNotes ys)
    (agg : Bool) (lh ext sp : ℚ) (c : ℕ) (hpl : plainAt ys c = true) :
    (scanAbove ys agg lh ext sp c).Pairwise
      (fun a b => offsetAt ys lh a ≤ offsetAt ys lh b) := by
  refine List.Pairwise.imp_of_mem ?_ (scanAbove_lt ys agg lh ext sp c)
  intro a b ha hb hab
  obtain ⟨hca, hchA⟩ := scanAbove_chain ys agg lh ext sp c a ha
  obtain ⟨hcb, hchB⟩ := scanAbove_chain ys agg lh ext sp c b hb
  obtain ⟨na, hga, hka⟩ := hchA a hca (le_refl a)
  obtain ⟨nb, hgb, hkb⟩ := hchB b hcb (le_refl b)
  simp only [aboveKeep, Bool.and_eq_true, beq_iff_eq] at hka hkb
  have hal : a < ys.length := (List.get?_eq_some.mp hga).1
  have hbl : b < ys.length := (List.get?_eq_some.mp hgb).1
  have hpa : na.plain = true := by
    rw [← plainAt_of_get ys a na hga]
    exact sorted_plain_mono ys hs c a hca hal hpl
  have hpb : nb.plain = true := by
    rw [← plainAt_of_get ys b nb hgb]
    exact sorted_plain_mono ys hs c b hcb hbl hpl
  have h := sorted_offset_mono ys hs a b (le_of_lt hab) na nb hga hgb
    (by rw [hpa, hpb]) (by rw [hka.1, hkb.1]) (by rw [hka.2, hkb.2])
  rw [offsetAt_of_get ys lh a na hga, offsetAt_of_get ys lh b nb hgb]
  linarith

/-- Along a below run scan from a plain non-above cursor, projected offsets
are monotone. -/
theorem scanBelow_offsets_mono (ys : List CNote) (hs : SortedNotes ys)
    (agg : Bool) (lh ext sp : ℚ) (c : ℕ) (hpl : plainAt ys c = true)
    (hab : aboveAt ys c = false) :
    (scanBelow ys agg lh ext sp c).Pairwise
      (fun a b => offsetAt ys lh a ≤ offsetAt ys lh b) := by
  refine List.Pairwise.imp_of_mem ?_ (scanBelow_lt ys agg lh ext sp c)
  intro a b ha hb hab2
  obtain ⟨hca, hchA⟩ := scanBelow_chain ys agg lh ext sp c a ha
  obtain ⟨hcb, hchB⟩ := scanBelow_chain ys agg lh ext sp c b hb
  obtain ⟨na, hga, hka⟩ := hchA a hca (le_refl a)
  obtain ⟨nb, hgb, hkb⟩ := hchB b hcb (le_refl b)
  simp only [belowKeep, beq_iff_eq] at hka hkb
  have hal : a < ys.length := (List.get?_eq_some.mp hga).1
  have hbl : b < ys.length := (List.get?_eq_some.mp hgb).1
  have hpa : na.plain = true := by
    rw [← plainAt_of_get ys a na hga]
    exact sorted_plain_mono ys hs c a hca hal hpl
  have hpb : nb.plain = true := by
    rw [← plainAt_of_get ys b nb hgb]
    exact sorted_plain_mono ys hs c b hcb hbl hpl
  have haa : na.above = false := by
    rw [← aboveAt_of_get ys a na hga]
    exact sorted_above_mono ys hs c a hca hal hpl hab
  have hbb : nb.above = false := by
    rw [← aboveAt_of_get ys b nb hgb]
    exact sorted_above_mono ys hs c b hcb hbl hpl hab
  have h := sorted_offset_mono ys hs a b (le_of_lt hab2) na nb hga hgb
    (by rw [hpa, hpb]) (by rw [haa, hbb]) (by rw [hka, hkb])
  rw [offsetAt_of_get ys lh a na hga, offsetAt_of_get ys lh b nb hgb]
  linarith

theorem scanAbove_agg_filter (ys : List CNote) (hs : SortedNotes ys) (lh ext sp : ℚ)
    (cull : ℕ → Bool) (hcull : ∀ j, ext < offsetAt ys lh j → cull j = false)
    (c : ℕ) (hpl : plainAt ys c = true) :
    (scanAbove ys true lh ext sp c).filter cull =
      (scanAbove ys false lh ext sp c).filter cull := by
  rw [scanAbove_agg_takeWhile ys lh ext sp c]
  apply takeWhile_filter_eq
  · intro j hj hpj
    apply hcull
    simpa using hpj
  · refine List.Pairwise.imp ?_ (scanAbove_offsets_mono ys hs false lh ext sp c hpl)
    intro a b hab hpa
    simp only [decide_eq_false_iff_not, not_le] at hpa ⊢
    linarith

theorem scanBelow_agg_filter (ys : List CNote) (hs : SortedNotes ys) (lh ext sp : ℚ)
    (cull : ℕ → Bool) (hcull : ∀ j, ext < offsetAt ys lh j → cull j = false)
    (c : ℕ) (hpl : plainAt ys c = true) (habc : aboveAt ys c = false) :
    (scanBelow ys true lh ext sp c).filter cull =
      (scanBelow ys false lh ext sp c).filter cull := by
  rw [scanBelow_agg_takeWhile ys lh ext sp c]
  apply takeWhile_filter_eq
  · intro j hj hpj
    apply hcull
    simpa using hpj
  · refine List.Pairwise.imp ?_ (scanBelow_offsets_mono ys hs false lh ext sp c hpl habc)
    intro a b hab hpa
    simp only [decide_eq_false_iff_not, not_le] at hpa ⊢
    linarith

/-- C3: on a line state satisfying the construction-time sort invariant (the
monotonic-run property the specification appeals to), the note indices handed
to per-note rendering that survive per-note culling are exactly the same with
aggressive culling on and off.  Per-note culling lives in `Note::render`
(outside the sources under verification) and is modelled from the spec as any
predicate that rejects every note whose projected offset exceeds the visible
half-extent of its side. -/
theorem c3_aggressive_culling (ys : List CNote) (hs : SortedNotes ys)
    (c : JudgeLineCache) (lh extA extB : ℚ) (cullA cullB : ℕ → Bool)
    (hcullA : ∀ j, extA < offsetAt ys lh j → cullA j = false)
    (hcullB : ∀ j, extB < offsetAt ys lh j → cullB j = false)
    (hca : ∀ i ∈ c.above_indices, plainAt ys i = true)
    (hcb : ∀ i ∈ c.below_indices, plainAt ys i = true ∧ aboveAt ys i = false) :
    (renderAboveIdxs ys c true lh extA).filter cullA =
      (renderAboveIdxs ys c false lh extA).filter cullA ∧
    (renderBelowIdxs ys c true lh extB).filter cullB =
      (renderBelowIdxs ys c false lh extB).filter cullB := by
  constructor
  · rw [renderAboveIdxs, renderAboveIdxs, List.filter_append, List.filter_append]
    congr 1
    apply flatMap_filter_congr
    intro i hi
    exact scanAbove_agg_filter ys hs lh extA (speedAt ys i) cullA hcullA i (hca i hi)
  · rw [renderBelowIdxs, renderBelowIdxs, List.filter_append, List.filter_append]
    congr 1
    apply flatMap_filter_congr
    intro i hi
    exact scanBelow_agg_filter ys hs lh extB (speedAt ys i) cullB hcullB i
      (hcb i hi).1 (hcb i hi).2

theorem c3_aggressive_culling_witness :
    SortedNotes demoNotes ∧
      (renderAboveIdxs demoNotes (JudgeLineCache.reset demoNotes) true 0 1).filter
          (fun j => decide (offsetAt demoNotes 0 j ≤ 1)) =
        (renderAboveIdxs demoNotes (JudgeLineCache.reset demoNotes) false 0 1).filter
          (fun j => decide (offsetAt demoNotes 0 j ≤ 1)) := by
  refine ⟨demoNotes_sorted, ?_⟩
  refine (c3_aggressive_culling demoNotes demoNotes_sorted (JudgeLineCache.reset demoNotes)
      0 1 1 (fun j => decide (offsetAt demoNotes 0 j ≤ 1))
      (fun j => decide (offsetAt demoNotes 0 j ≤ 1)) ?_ ?_ ?_ ?_).1
  · intro j hj
    simp only [decide_eq_false_iff_not, not_le]
    exact hj
  · intro j hj
    simp only [decide_eq_false_iff_not, not_le]
    exact hj
  · intro i hi
    rw [demo_reset_eval] at hi
    simp only [List.mem_singleton] at hi
    subst hi
    rfl
  · intro i hi
    rw [demo_reset_eval] at hi
    simp only [List.mem_singleton] at hi
    subst hi
    exact ⟨rfl, rfl⟩

end Prpr
